import Mathlib

/-!
# Verification of the mpc-fixer mapping/codec core

Shallow embedding, in Lean 4, of the sample-to-instrument auto-mapper, the
program codec (writer, reader, textual repair pass), the MIDI track-event
decoder and its two projections, the velocity-layer assignment, and the
instrument validator of the mpc-fixer repository.  Each definition mirrors
one TypeScript function; machine numbers are modelled as `ℕ`/`ℤ`.  Where
JavaScript computes with fractional doubles, IEEE binary64 arithmetic is
embedded exactly: values are dyadic rationals over a fixed power-of-two
scale and every operation rounds its integer numerator to 53 significant
bits, nearest, ties to even (`fl53` below); where a computation is provably
exact in doubles the integer form is used, with the justification at the
definition concerned.  DOM documents are modelled as node trees;
serialising a tree to text and parsing text back to a tree is the browser's
(`DOMParser`), outside the repository, so the codec writer is embedded as
the tree of elements and attributes it emits and the codec reader as the
tree traversal it performs.
-/

/-! ## Generic list helpers -/

theorem getD_map_range {α : Type} (f : ℕ → α) (d : α) {i n : ℕ} (h : i < n) :
    (List.getD (List.map f (List.range n)) i d) = f i := by
  rw [List.getD_eq_getElem?_getD]
  simp [List.getElem?_map, List.getElem?_range h]

theorem length_map_range {α : Type} (f : ℕ → α) (n : ℕ) :
    (List.map f (List.range n)).length = n := by simp

/-- Interval-chain membership: given cut points `c 0 = 0 ≤ c 1 ≤ … ≤ c n = 128`,
every `v < 128` lies in exactly one half-open interval `[c i, c (i+1))`. -/
theorem cuts_mem_unique (c : ℕ → ℕ) (n : ℕ) (hn : 0 < n)
    (hmono : ∀ i j, i ≤ j → j ≤ n → c i ≤ c j)
    (h0 : c 0 = 0) (hN : c n = 128) (v : ℕ) (hv : v < 128) :
    ∃! i, i < n ∧ c i ≤ v ∧ v < c (i + 1) := by
  classical
  have hP0 : (fun i => c i ≤ v) 0 := by simp [h0]
  have hi0le : Nat.findGreatest (fun i => c i ≤ v) (n - 1) ≤ n - 1 :=
    Nat.findGreatest_le _
  have hci0 : c (Nat.findGreatest (fun i => c i ≤ v) (n - 1)) ≤ v :=
    Nat.findGreatest_spec (P := fun i => c i ≤ v) (m := 0) (Nat.zero_le _) hP0
  have hupper : v < c (Nat.findGreatest (fun i => c i ≤ v) (n - 1) + 1) := by
    by_cases hcase : Nat.findGreatest (fun i => c i ≤ v) (n - 1) = n - 1
    · rw [hcase]
      have h1 : n - 1 + 1 = n := by omega
      rw [h1, hN]; exact hv
    · have h2 : Nat.findGreatest (fun i => c i ≤ v) (n - 1) + 1 ≤ n - 1 := by omega
      have := Nat.findGreatest_is_greatest (P := fun i => c i ≤ v)
        (k := Nat.findGreatest (fun i => c i ≤ v) (n - 1) + 1) (by omega) h2
      simp only at this
      omega
  set i0 := Nat.findGreatest (fun i => c i ≤ v) (n - 1) with hi0def
  have hi0n : i0 < n := by omega
  refine ⟨i0, ⟨hi0n, hci0, hupper⟩, ?_⟩
  rintro j ⟨hjn, hcj, hvj⟩
  by_contra hne
  rcases Nat.lt_or_ge j i0 with hlt | hge
  · -- j < i0 : then c i0 ≤ c ... contradiction with v < c (j+1) ≤ c i0
    have : c (j + 1) ≤ c i0 := hmono (j + 1) i0 (by omega) (by omega)
    omega
  · have hlt : i0 < j := by omega
    have : c (i0 + 1) ≤ c j := hmono (i0 + 1) j (by omega) (by omega)
    omega

/-! ## Auto-mapper keygroup boundaries

`InstrumentService.autoMapSamples` sorts the mapped samples by MIDI note and
builds one keygroup per sample; `XPMGenerator.generateInstrumentXPM` computes
the same bounds for its sorted key-mapping entries:

```ts
if (i > 0) { lowNote = Math.floor((roots[i-1] + roots[i]) / 2) + 1 } else { lowNote = 0 }
if (i < n - 1) { highNote = Math.floor((roots[i] + roots[i+1]) / 2) } else { highNote = 127 }
```
-/

structure Keygroup where
  lowNote : ℕ
  highNote : ℕ
  rootNote : ℕ
  deriving Repr, DecidableEq, Inhabited

/-- Low bound of keygroup `i` for the ascending root-note list `roots`. -/
def kgLow (roots : List ℕ) (i : ℕ) : ℕ :=
  if i = 0 then 0 else (roots.getD (i - 1) 0 + roots.getD i 0) / 2 + 1

/-- High bound of keygroup `i` for the ascending root-note list `roots`. -/
def kgHigh (roots : List ℕ) (i : ℕ) : ℕ :=
  if i < roots.length - 1 then (roots.getD i 0 + roots.getD (i + 1) 0) / 2 else 127

/-- The keygroup list built by the `for` loop of
`InstrumentService.autoMapSamples` over the sorted root notes. -/
def autoMapKeygroups (roots : List ℕ) : List Keygroup :=
  (List.range roots.length).map fun i =>
    { lowNote := kgLow roots i, highNote := kgHigh roots i, rootNote := roots.getD i 0 }

/-- Cut points of the keygroup partition: interval `i` is `[cut i, cut (i+1) - 1]`. -/
def kgCut (roots : List ℕ) (i : ℕ) : ℕ :=
  if i = 0 then 0
  else if i < roots.length then (roots.getD (i - 1) 0 + roots.getD i 0) / 2 + 1
  else 128

theorem kgLow_eq_cut (roots : List ℕ) {i : ℕ} (h : i < roots.length) :
    kgLow roots i = kgCut roots i := by
  unfold kgLow kgCut
  by_cases h0 : i = 0 <;> simp [h0, h]

theorem kgHigh_eq_cut (roots : List ℕ) {i : ℕ} (h : i < roots.length) :
    kgHigh roots i = kgCut roots (i + 1) - 1 := by
  unfold kgHigh kgCut
  by_cases hlast : i < roots.length - 1
  · have h1 : i + 1 < roots.length := by omega
    simp [hlast, h1]
  · have h1 : ¬(i + 1 < roots.length) := by omega
    simp [hlast, h1]

section KgPartition

variable {roots : List ℕ}

theorem kgCut_mono (hasc : ∀ i, i + 1 < roots.length →
      roots.getD i 0 < roots.getD (i + 1) 0)
    (hle : ∀ i, i < roots.length → roots.getD i 0 ≤ 127) :
    ∀ i, i < roots.length → kgCut roots i < kgCut roots (i + 1) := by
  intro i hi
  unfold kgCut
  by_cases h0 : i = 0
  · subst h0
    by_cases h1 : 1 < roots.length
    · simp [h1]
    · simp [h1]
  · -- i ≥ 1, i < n
    have hi1 : i < roots.length := hi
    by_cases h1 : i + 1 < roots.length
    · -- both interior: (r(i-1)+r i)/2 + 1 < (r i + r(i+1))/2 + 1
      have ha : roots.getD (i - 1) 0 < roots.getD i 0 := by
        have := hasc (i - 1) (by omega)
        have heq : i - 1 + 1 = i := by omega
        rwa [heq] at this
      have hb : roots.getD i 0 < roots.getD (i + 1) 0 := hasc i h1
      rw [if_neg h0, if_pos hi1, if_neg (show ¬(i + 1 = 0) by omega), if_pos h1,
        Nat.add_sub_cancel]
      omega
    · -- i is the last index: cut (i+1) = 128 and cut i ≤ r i ≤ 127
      have ha : roots.getD (i - 1) 0 < roots.getD i 0 := by
        have := hasc (i - 1) (by omega)
        have heq : i - 1 + 1 = i := by omega
        rwa [heq] at this
      have hr : roots.getD i 0 ≤ 127 := hle i hi
      rw [if_neg h0, if_pos hi1, if_neg (show ¬(i + 1 = 0) by omega), if_neg h1]
      omega

theorem kgCut_root_mem (hasc : ∀ i, i + 1 < roots.length →
      roots.getD i 0 < roots.getD (i + 1) 0)
    (hle : ∀ i, i < roots.length → roots.getD i 0 ≤ 127) :
    ∀ i, i < roots.length →
      kgCut roots i ≤ roots.getD i 0 ∧ roots.getD i 0 < kgCut roots (i + 1) := by
  intro i hi
  constructor
  · unfold kgCut
    by_cases h0 : i = 0
    · simp [h0]
    · rw [if_neg h0, if_pos hi]
      have ha : roots.getD (i - 1) 0 < roots.getD i 0 := by
        have := hasc (i - 1) (by omega)
        have heq : i - 1 + 1 = i := by omega
        rwa [heq] at this
      omega
  · unfold kgCut
    by_cases h1 : i + 1 < roots.length
    · have hb : roots.getD i 0 < roots.getD (i + 1) 0 := hasc i h1
      rw [if_neg (show ¬(i + 1 = 0) by omega), if_pos h1, Nat.add_sub_cancel]
      omega
    · have hr : roots.getD i 0 ≤ 127 := hle i hi
      rw [if_neg (show ¬(i + 1 = 0) by omega), if_neg h1]
      omega

end KgPartition

/-- C1.  For every ascending sequence of distinct root notes (all in `[0,127]`)
given to the auto-mapper, keygroup `i` has `low = 0` if first else
`⌊(root[i-1]+root[i])/2⌋ + 1` and `high = 127` if last else
`⌊(root[i]+root[i+1])/2⌋`; the resulting ranges cover `[0,127]` completely
with zero overlap, and each root lies inside its own range. -/
theorem autoMap_keygroup_ranges_partition (roots : List ℕ)
    (hne : roots ≠ [])
    (hasc : ∀ i, i + 1 < roots.length → roots.getD i 0 < roots.getD (i + 1) 0)
    (hle : ∀ i, i < roots.length → roots.getD i 0 ≤ 127) :
    (∀ i, i < roots.length →
      (autoMapKeygroups roots).getD i default =
        { lowNote := if i = 0 then 0 else (roots.getD (i - 1) 0 + roots.getD i 0) / 2 + 1,
          highNote := if i < roots.length - 1
            then (roots.getD i 0 + roots.getD (i + 1) 0) / 2 else 127,
          rootNote := roots.getD i 0 }) ∧
    (∀ v, v ≤ 127 → ∃! i, i < roots.length ∧
      ((autoMapKeygroups roots).getD i default).lowNote ≤ v ∧
      v ≤ ((autoMapKeygroups roots).getD i default).highNote) ∧
    (∀ i, i < roots.length →
      ((autoMapKeygroups roots).getD i default).lowNote ≤ roots.getD i 0 ∧
      roots.getD i 0 ≤ ((autoMapKeygroups roots).getD i default).highNote) := by
  have hn : 0 < roots.length := List.length_pos.mpr hne
  have hget : ∀ i, i < roots.length → (autoMapKeygroups roots).getD i default =
      { lowNote := kgLow roots i, highNote := kgHigh roots i,
        rootNote := roots.getD i 0 } := by
    intro i hi
    unfold autoMapKeygroups
    exact getD_map_range _ _ hi
  have hmono : ∀ i j, i ≤ j → j ≤ roots.length → kgCut roots i ≤ kgCut roots j := by
    intro i j hij hjn
    induction j with
    | zero =>
      have h : i = 0 := by omega
      subst h; exact le_refl _
    | succ k ih =>
      rcases Nat.lt_or_ge i (k + 1) with hlt | hge
      · have h1 : kgCut roots i ≤ kgCut roots k := ih (by omega) (by omega)
        have h2 : kgCut roots k < kgCut roots (k + 1) := by
          rcases Nat.lt_or_ge k roots.length with hk | hk
          · exact kgCut_mono hasc hle k hk
          · -- k ≥ n: then k + 1 ≤ n impossible
            omega
        omega
      · have h : i = k + 1 := by omega
        rw [h]
  have hcut0 : kgCut roots 0 = 0 := by simp [kgCut]
  have hcutN : kgCut roots roots.length = 128 := by
    unfold kgCut
    have : roots.length ≠ 0 := by omega
    simp [this]
  have hpos1 : ∀ i, i < roots.length → 1 ≤ kgCut roots (i + 1) := by
    intro i hi
    have h1 : kgCut roots i < kgCut roots (i + 1) := kgCut_mono hasc hle i hi
    omega
  refine ⟨?_, ?_, ?_⟩
  · intro i hi
    rw [hget i hi]
    simp [kgLow, kgHigh]
  · intro v hv
    have := cuts_mem_unique (kgCut roots) roots.length hn hmono hcut0 hcutN v (by omega)
    rcases this with ⟨i0, ⟨hi0n, hci0, hvi0⟩, huniq⟩
    refine ⟨i0, ⟨hi0n, ?_, ?_⟩, ?_⟩
    · rw [hget i0 hi0n]
      simpa [kgLow_eq_cut roots hi0n] using hci0
    · rw [hget i0 hi0n]
      simp only [kgHigh_eq_cut roots hi0n]
      have := hpos1 i0 hi0n
      omega
    · rintro j ⟨hjn, hjl, hjh⟩
      rw [hget j hjn] at hjl hjh
      simp only [kgLow_eq_cut roots hjn, kgHigh_eq_cut roots hjn] at hjl hjh
      have := hpos1 j hjn
      exact huniq j ⟨hjn, hjl, by omega⟩
  · intro i hi
    have hmem := kgCut_root_mem hasc hle i hi
    rw [hget i hi]
    simp only [kgLow_eq_cut roots hi, kgHigh_eq_cut roots hi]
    have := hpos1 i hi
    omega

/-- Witness for C1 at the concrete root list `[60, 64]`. -/
theorem autoMap_keygroup_ranges_partition_witness :
    ((autoMapKeygroups [60, 64]).getD 0 default =
      { lowNote := 0, highNote := 62, rootNote := 60 }) ∧
    ((autoMapKeygroups [60, 64]).getD 1 default =
      { lowNote := 63, highNote := 127, rootNote := 64 }) := by
  have h := autoMap_keygroup_ranges_partition [60, 64] (by decide)
    (by intro i hi; have h0 : i = 0 := by simp at hi; omega
        subst h0; decide)
    (by intro i hi; simp only [List.length_cons, List.length_nil] at hi
        interval_cases i <;> decide)
  refine ⟨?_, ?_⟩
  · have := h.1 0 (by decide)
    simpa using this
  · have := h.1 1 (by decide)
    simpa using this


/-! ## Velocity-layer assignment (`MultiLayerExporter.assignVelocityRanges`)

For each root-note group the source sorts the zones by `velLow`
(`rootZones.sort((a, b) => a.velLow - b.velLow)`, a stable sort), gives a
single zone the full range `[0,127]`, and otherwise computes

```ts
const rangeSize = 128 / rootZones.length            // a binary64 double
zone.velLow  = Math.floor(i * rangeSize)
zone.velHigh = Math.floor((i + 1) * rangeSize - 1)
if (i === rootZones.length - 1) zone.velHigh = 127
```

`rangeSize` is the IEEE binary64 double nearest `128 / M`, and the product
`i * rangeSize` and the subtraction `- 1` are each correctly rounded to the
nearest double (ties to even).  The definitions below embed this arithmetic
exactly: every intermediate value is a dyadic rational over the fixed scale
`2 ^ rangeSizeExp M`, and one binary64 operation is the integer-numerator
rounding `fl53` (round to 53 significant bits, nearest, ties to even) — at
these magnitudes (all values in `[0, 256]`, loop counters below `2^53`)
binary64 arithmetic has no overflow or subnormals, so an operation is
exactly the correctly rounded real result.  Exact rational arithmetic would
*not* be faithful here: at `M = 98` the double product `49 * (128/98)` is
strictly below 64, so the code computes `velLow = 63` where the exact
rational floor is 64 (see `assignVelocity_layer_bounds`). -/

structure VZone where
  file : String
  root : ℤ
  low : ℤ
  high : ℤ
  velLow : ℤ
  velHigh : ℤ
  deriving Repr, DecidableEq, Inhabited

/-- Bit length of a natural number (`bitlen 0 = 0`, `bitlen n = ⌊log₂ n⌋ + 1`
for `n ≥ 1`), driven by fuel; `bitlen` supplies fuel `n`, which always
suffices because the argument halves at every step. -/
def bitlenF : ℕ → ℕ → ℕ
  | 0, _ => 0
  | fuel + 1, n => if n = 0 then 0 else bitlenF fuel (n / 2) + 1

def bitlen (n : ℕ) : ℕ := bitlenF n n

theorem bitlenF_congr : ∀ n f1 f2, n ≤ f1 → n ≤ f2 → bitlenF f1 n = bitlenF f2 n := by
  intro n
  induction n using Nat.strong_induction_on with
  | _ n ih =>
    intro f1 f2 h1 h2
    rcases Nat.eq_zero_or_pos n with hn | hn
    · subst hn
      cases f1 <;> cases f2 <;> simp [bitlenF]
    · obtain ⟨g1, rfl⟩ : ∃ g1, f1 = g1 + 1 := ⟨f1 - 1, by omega⟩
      obtain ⟨g2, rfl⟩ : ∃ g2, f2 = g2 + 1 := ⟨f2 - 1, by omega⟩
      simp only [bitlenF, if_neg (by omega : ¬n = 0)]
      have := ih (n / 2) (by omega) g1 g2 (by omega) (by omega)
      omega

theorem bitlen_div2 {n : ℕ} (h : 1 ≤ n) : bitlen n = bitlen (n / 2) + 1 := by
  obtain ⟨m, rfl⟩ : ∃ m, n = m + 1 := ⟨n - 1, by omega⟩
  have h1 : bitlenF (m + 1) (m + 1) = bitlenF m ((m + 1) / 2) + 1 := by
    simp only [bitlenF, if_neg (Nat.succ_ne_zero m)]
  have h2 : bitlenF m ((m + 1) / 2) = bitlenF ((m + 1) / 2) ((m + 1) / 2) :=
    bitlenF_congr _ _ _ (by omega) (by omega)
  unfold bitlen
  omega

theorem bitlen_zero : bitlen 0 = 0 := rfl

theorem bitlen_lt (n : ℕ) : n < 2 ^ bitlen n := by
  induction n using Nat.strong_induction_on with
  | _ n ih =>
    rcases Nat.eq_zero_or_pos n with hn | hn
    · subst hn
      simp [bitlen_zero]
    · rw [bitlen_div2 hn, pow_succ]
      have := ih (n / 2) (by omega)
      omega

theorem bitlen_ge : ∀ n : ℕ, 1 ≤ n → 2 ^ (bitlen n - 1) ≤ n := by
  intro n
  induction n using Nat.strong_induction_on with
  | _ n ih =>
    intro h
    rcases Nat.lt_or_ge n 2 with hn | hn
    · have h1 : n = 1 := by omega
      subst h1
      decide
    · have h2 : 1 ≤ n / 2 := by omega
      have h3 := ih (n / 2) (by omega) h2
      have h4 : 1 ≤ bitlen (n / 2) := by
        rw [bitlen_div2 h2]
        omega
      rw [bitlen_div2 (by omega)]
      have h5 : bitlen (n / 2) + 1 - 1 = (bitlen (n / 2) - 1) + 1 := by omega
      rw [h5, pow_succ]
      omega

theorem bitlen_le_iff {n k : ℕ} : bitlen n ≤ k ↔ n < 2 ^ k := by
  constructor
  · intro h
    exact lt_of_lt_of_le (bitlen_lt n) (Nat.pow_le_pow_right (by omega) h)
  · intro h
    by_contra hc
    push_neg at hc
    rcases Nat.eq_zero_or_pos n with hn | hn
    · subst hn
      simp [bitlen_zero] at hc
    · have h1 := bitlen_ge n hn
      have h2 : 2 ^ k ≤ 2 ^ (bitlen n - 1) := Nat.pow_le_pow_right (by omega) (by omega)
      omega

theorem bitlen_mono {m n : ℕ} (h : m ≤ n) : bitlen m ≤ bitlen n :=
  bitlen_le_iff.mpr (lt_of_le_of_lt h (bitlen_lt n))

theorem bitlen_pos {n : ℕ} (h : 1 ≤ n) : 1 ≤ bitlen n := by
  rw [bitlen_div2 h]
  omega

/-- Round the nonnegative rational `a / b` to the nearest integer, ties to
even — the IEEE-754 default rounding, applied to a scaled significand. -/
def rne (a b : ℕ) : ℕ :=
  if 2 * (a % b) < b then a / b
  else if b < 2 * (a % b) then a / b + 1
  else if (a / b) % 2 = 0 then a / b else a / b + 1

theorem rne_div_le (a b : ℕ) : a / b ≤ rne a b := by
  unfold rne
  split_ifs <;> omega

theorem rne_le_div_succ (a b : ℕ) : rne a b ≤ a / b + 1 := by
  unfold rne
  split_ifs <;> omega

theorem rne_up_cases (a b : ℕ) :
    rne a b = a / b ∨ (rne a b = a / b + 1 ∧ b ≤ 2 * (a % b)) := by
  unfold rne
  split_ifs <;> omega

theorem rne_down_cases (a b : ℕ) :
    rne a b = a / b + 1 ∨ (rne a b = a / b ∧ 2 * (a % b) ≤ b) := by
  unfold rne
  split_ifs <;> omega

theorem rne_mul_le {a b : ℕ} (hb : 0 < b) : 2 * b * rne a b ≤ 2 * a + b := by
  have hd := Nat.div_add_mod a b
  have hr : a % b < b := Nat.mod_lt _ hb
  obtain ⟨X, hX⟩ : ∃ X, b * (a / b) = X := ⟨_, rfl⟩
  rw [hX] at hd
  rcases rne_up_cases a b with h | ⟨h, hba⟩ <;> rw [h]
  · calc 2 * b * (a / b) = 2 * X := by rw [← hX]; ring
      _ ≤ 2 * a + b := by omega
  · calc 2 * b * (a / b + 1) = 2 * X + 2 * b := by rw [← hX]; ring
      _ ≤ 2 * a + b := by omega

theorem le_rne_mul {a b : ℕ} (hb : 0 < b) : 2 * a ≤ 2 * b * rne a b + b := by
  have hd := Nat.div_add_mod a b
  have hr : a % b < b := Nat.mod_lt _ hb
  obtain ⟨X, hX⟩ : ∃ X, b * (a / b) = X := ⟨_, rfl⟩
  rw [hX] at hd
  rcases rne_down_cases a b with h | ⟨h, hba⟩ <;> rw [h]
  · calc 2 * a ≤ 2 * X + 2 * b + b := by omega
      _ = 2 * b * (a / b + 1) + b := by rw [← hX]; ring
  · calc 2 * a ≤ 2 * X + b := by omega
      _ = 2 * b * (a / b) + b := by rw [← hX]; ring

theorem rne_exact {a b : ℕ} (hb : 0 < b) (h : a % b = 0) : rne a b = a / b := by
  unfold rne
  rw [h, if_pos (by omega)]

theorem rne_le_of_le {a b c : ℕ} (hb : 0 < b) (h : a ≤ b * c) : rne a b ≤ c := by
  have hd := Nat.div_add_mod a b
  rcases Nat.lt_or_ge (a / b) c with hlt | hge
  · calc rne a b ≤ a / b + 1 := rne_le_div_succ a b
      _ ≤ c := by omega
  · have h3 : a / b ≤ c := by
      have h4 : a / b ≤ b * c / b := Nat.div_le_div_right h
      rwa [Nat.mul_div_cancel_left _ hb] at h4
    have h5 : a / b = c := le_antisymm h3 hge
    have h6 : a % b = 0 := by
      rw [h5] at hd
      omega
    rw [rne_exact hb h6, h5]

theorem rne_ge_of_le {a b c : ℕ} (hb : 0 < b) (h : b * c ≤ a) : c ≤ rne a b := by
  have h1 : c ≤ a / b := (Nat.le_div_iff_mul_le hb).mpr (mul_comm b c ▸ h)
  exact le_trans h1 (rne_div_le a b)

theorem rne_mono {a1 a2 : ℕ} (b : ℕ) (h : a1 ≤ a2) :
    rne a1 b ≤ rne a2 b := by
  rcases Nat.lt_or_ge (a1 / b) (a2 / b) with hlt | hge
  · calc rne a1 b ≤ a1 / b + 1 := rne_le_div_succ a1 b
      _ ≤ a2 / b := hlt
      _ ≤ rne a2 b := rne_div_le a2 b
  · have heq : a1 / b = a2 / b := le_antisymm (Nat.div_le_div_right h) hge
    have hd1 := Nat.div_add_mod a1 b
    have hd2 := Nat.div_add_mod a2 b
    unfold rne
    rw [heq] at hd1 ⊢
    generalize hQ : a2 / b = q at hd1 hd2 ⊢
    generalize hX : b * q = X at hd1 hd2
    generalize hR1 : a1 % b = r1 at hd1 ⊢
    generalize hR2 : a2 % b = r2 at hd2 ⊢
    split_ifs <;> omega

/-- Round a nonnegative integer to 53 significant bits (nearest, ties to
even): the rounding a binary64 operation applies to the integer numerator of
its exact dyadic result (no value in this development overflows or goes
subnormal, so the scale is untouched). -/
def fl53 (n : ℕ) : ℕ := rne n (2 ^ (bitlen n - 53)) * 2 ^ (bitlen n - 53)

theorem fl53_zero : fl53 0 = 0 := rfl

theorem fl53_exact {n : ℕ} (h : n < 2 ^ 53) : fl53 n = n := by
  have hb : bitlen n - 53 = 0 := by
    have := bitlen_le_iff.mpr h
    omega
  rw [fl53, hb, pow_zero, mul_one, rne_exact (by omega) (Nat.mod_one n), Nat.div_one]

theorem fl53_le_two_pow (n : ℕ) : fl53 n ≤ 2 ^ bitlen n := by
  rcases Nat.lt_or_ge (bitlen n) 54 with hb | hb
  · have h1 : n < 2 ^ 53 := bitlen_le_iff.mp (by omega)
    rw [fl53_exact h1]
    exact le_of_lt (bitlen_lt n)
  · have h1 : n < 2 ^ (bitlen n - 53) * 2 ^ 53 := by
      have h2 := bitlen_lt n
      have h3 : (2:ℕ) ^ (bitlen n - 53) * 2 ^ 53 = 2 ^ bitlen n := by
        rw [← pow_add]
        congr 1
        omega
      omega
    have h2 : rne n (2 ^ (bitlen n - 53)) ≤ 2 ^ 53 :=
      rne_le_of_le (pow_pos (by omega) _) (le_of_lt h1)
    calc fl53 n ≤ 2 ^ 53 * 2 ^ (bitlen n - 53) := Nat.mul_le_mul_right _ h2
      _ = 2 ^ bitlen n := by
          rw [← pow_add]
          congr 1
          omega

theorem fl53_upper (n : ℕ) : 2 ^ 54 * fl53 n ≤ 2 ^ 54 * n + 2 * n := by
  rcases Nat.lt_or_ge (bitlen n) 54 with hb | hb
  · have h1 : n < 2 ^ 53 := bitlen_le_iff.mp (by omega)
    rw [fl53_exact h1]
    omega
  · have hn1 : 1 ≤ n := by
      rcases Nat.eq_zero_or_pos n with hn | hn
      · subst hn
        simp [bitlen_zero] at hb
      · exact hn
    have hs1 : 1 ≤ bitlen n - 53 := by omega
    have hpow : (0:ℕ) < 2 ^ (bitlen n - 53) := pow_pos (by omega) _
    have h1 : 2 * 2 ^ (bitlen n - 53) * rne n (2 ^ (bitlen n - 53)) ≤
        2 * n + 2 ^ (bitlen n - 53) := rne_mul_le hpow
    have h2 : 2 ^ ((bitlen n - 53) + 52) ≤ n := by
      have h3 := bitlen_ge n hn1
      have h4 : bitlen n - 1 = (bitlen n - 53) + 52 := by omega
      rwa [h4] at h3
    have h3 : 2 ^ ((bitlen n - 53) + 53) ≤ 2 * n := by
      have h4 : (2:ℕ) ^ ((bitlen n - 53) + 53) = 2 * 2 ^ ((bitlen n - 53) + 52) := by
        rw [(by omega : (bitlen n - 53) + 53 = ((bitlen n - 53) + 52) + 1), pow_succ]
        ring
      omega
    calc 2 ^ 54 * fl53 n
        = 2 ^ 53 * (2 * 2 ^ (bitlen n - 53) * rne n (2 ^ (bitlen n - 53))) := by
          rw [fl53]
          ring
      _ ≤ 2 ^ 53 * (2 * n + 2 ^ (bitlen n - 53)) := Nat.mul_le_mul_left _ h1
      _ = 2 ^ 54 * n + 2 ^ ((bitlen n - 53) + 53) := by ring
      _ ≤ 2 ^ 54 * n + 2 * n := Nat.add_le_add_left h3 _

theorem fl53_lower (n : ℕ) : 2 ^ 54 * n ≤ 2 ^ 54 * fl53 n + 2 * n := by
  rcases Nat.lt_or_ge (bitlen n) 54 with hb | hb
  · have h1 : n < 2 ^ 53 := bitlen_le_iff.mp (by omega)
    rw [fl53_exact h1]
    omega
  · have hn1 : 1 ≤ n := by
      rcases Nat.eq_zero_or_pos n with hn | hn
      · subst hn
        simp [bitlen_zero] at hb
      · exact hn
    have hpow : (0:ℕ) < 2 ^ (bitlen n - 53) := pow_pos (by omega) _
    have h1 : 2 * n ≤ 2 * 2 ^ (bitlen n - 53) * rne n (2 ^ (bitlen n - 53)) +
        2 ^ (bitlen n - 53) := le_rne_mul hpow
    have h2 : 2 ^ ((bitlen n - 53) + 52) ≤ n := by
      have h3 := bitlen_ge n hn1
      have h4 : bitlen n - 1 = (bitlen n - 53) + 52 := by omega
      rwa [h4] at h3
    have h3 : 2 ^ ((bitlen n - 53) + 53) ≤ 2 * n := by
      have h4 : (2:ℕ) ^ ((bitlen n - 53) + 53) = 2 * 2 ^ ((bitlen n - 53) + 52) := by
        rw [(by omega : (bitlen n - 53) + 53 = ((bitlen n - 53) + 52) + 1), pow_succ]
        ring
      omega
    have h5 : 2 ^ 53 * (2 * n) ≤
        2 ^ 53 * (2 * 2 ^ (bitlen n - 53) * rne n (2 ^ (bitlen n - 53)) +
          2 ^ (bitlen n - 53)) := Nat.mul_le_mul_left _ h1
    have h6 : 2 ^ 53 * (2 * 2 ^ (bitlen n - 53) * rne n (2 ^ (bitlen n - 53)) +
        2 ^ (bitlen n - 53)) = 2 ^ 54 * fl53 n + 2 ^ ((bitlen n - 53) + 53) := by
      rw [fl53]
      ring
    have h7 : (2:ℕ) ^ 53 * (2 * n) = 2 ^ 54 * n := by ring
    omega

theorem fl53_mono {m n : ℕ} (h : m ≤ n) : fl53 m ≤ fl53 n := by
  rcases Nat.lt_or_ge (bitlen n) 54 with hb | hb
  · have hm : m < 2 ^ 53 := bitlen_le_iff.mp (le_trans (bitlen_mono h) (by omega))
    have hn : n < 2 ^ 53 := bitlen_le_iff.mp (by omega)
    rw [fl53_exact hm, fl53_exact hn]
    exact h
  · rcases Nat.eq_or_lt_of_le (show bitlen m - 53 ≤ bitlen n - 53 by
        have := bitlen_mono h
        omega) with hs | hs
    · rw [fl53, fl53, hs]
      exact Nat.mul_le_mul_right _ (rne_mono _ h)
    · have hn1 : 1 ≤ n := by
        rcases Nat.eq_zero_or_pos n with hn | hn
        · subst hn
          simp [bitlen_zero] at hb
        · exact hn
      have h1 : fl53 m ≤ 2 ^ bitlen m := fl53_le_two_pow m
      have h2 : 2 ^ ((bitlen n - 53) + 52) ≤ fl53 n := by
        have hge := bitlen_ge n hn1
        have he : bitlen n - 1 = (bitlen n - 53) + 52 := by omega
        rw [he] at hge
        have h3 : 2 ^ (bitlen n - 53) * 2 ^ 52 ≤ n := by
          rw [← pow_add]
          rwa [(by omega : (bitlen n - 53) + 52 = (bitlen n - 53) + 52)] at hge
        have hr := rne_ge_of_le (pow_pos (by omega) (bitlen n - 53)) h3
        calc 2 ^ ((bitlen n - 53) + 52) = 2 ^ 52 * 2 ^ (bitlen n - 53) := by
              rw [← pow_add]
              congr 1
              omega
          _ ≤ rne n (2 ^ (bitlen n - 53)) * 2 ^ (bitlen n - 53) :=
              Nat.mul_le_mul_right _ hr
          _ = fl53 n := rfl
      have h3 : bitlen m ≤ (bitlen n - 53) + 52 := by
        have := bitlen_mono h
        omega
      calc fl53 m ≤ 2 ^ bitlen m := h1
        _ ≤ 2 ^ ((bitlen n - 53) + 52) := Nat.pow_le_pow_right (by omega) h3
        _ ≤ fl53 n := h2

theorem fl53_of_dvd {n : ℕ} (j : ℕ) (hdvd : 2 ^ j ∣ n) (hlt : n < 2 ^ (j + 53)) :
    fl53 n = n := by
  have hb : bitlen n ≤ j + 53 := bitlen_le_iff.mpr hlt
  have hs : bitlen n - 53 ≤ j := by omega
  have hdvd2 : 2 ^ (bitlen n - 53) ∣ n := dvd_trans (pow_dvd_pow 2 hs) hdvd
  have hmod : n % 2 ^ (bitlen n - 53) = 0 :=
    Nat.mod_eq_zero_of_dvd hdvd2
  rw [fl53, rne_exact (pow_pos (by omega) _) hmod, Nat.div_mul_cancel hdvd2]

theorem fl53_pos {n : ℕ} (h : 1 ≤ n) : 1 ≤ fl53 n := by
  by_contra hc
  push_neg at hc
  have h0 : fl53 n = 0 := by omega
  have h1 := fl53_lower n
  rw [h0] at h1
  omega

/-- Significand of the binary64 double `rangeSize = 128 / M`: the real
quotient `128 / M` lies in `[2 ^ (7 - bitlen M), 2 ^ (8 - bitlen M))`, so its
53-bit significand grid has step `2 ^ (7 - bitlen M - 52)` and the correctly
rounded quotient is `rangeSizeNum M / 2 ^ rangeSizeExp M`. -/
def rangeSizeNum (M : ℕ) : ℕ := rne (2 ^ (bitlen M + 52)) M

/-- The fixed power-of-two scale of `rangeSize` and of every product
`i * rangeSize` (as dyadic rationals). -/
def rangeSizeExp (M : ℕ) : ℕ := bitlen M + 45

/-- `Math.floor(i * rangeSize)`: the loop counter `i` is an exact double,
the product is one correctly rounded binary64 multiplication. -/
def velLowF (M i : ℕ) : ℕ := fl53 (i * rangeSizeNum M) / 2 ^ rangeSizeExp M

/-- `Math.floor` of a (already rounded) dyadic `z / 2 ^ e`. -/
def dyFloor (z : ℤ) (e : ℕ) : ℤ :=
  if 0 ≤ z then ((z.toNat / 2 ^ e : ℕ) : ℤ)
  else -(((z.natAbs + 2 ^ e - 1) / 2 ^ e : ℕ) : ℤ)

/-- `fl53` on a signed numerator (IEEE rounding is sign-symmetric). -/
def fl53Z (z : ℤ) : ℤ :=
  if 0 ≤ z then (fl53 z.toNat : ℤ) else -(fl53 z.natAbs : ℤ)

/-- `Math.floor((i + 1) * rangeSize - 1)`: the binary64 product, minus the
exact double 1 (one rounded subtraction), floored. -/
def velHighF (M i : ℕ) : ℤ :=
  dyFloor (fl53Z ((fl53 ((i + 1) * rangeSizeNum M) : ℤ) - 2 ^ rangeSizeExp M))
    (rangeSizeExp M)

/-- Stable ascending sort by `velLow`, modelling the (stable) JavaScript
`Array.prototype.sort` with comparator `(a, b) => a.velLow - b.velLow`. -/
def sortByVelLow (zs : List VZone) : List VZone :=
  zs.insertionSort (fun a b => a.velLow < b.velLow)

/-- `MultiLayerExporter.assignVelocityRanges`, restricted to a single
root-note group (the body of the `for (const root in zonesByRoot)` loop). -/
def assignVelocityRangesGroup (zs : List VZone) : List VZone :=
  let sorted := sortByVelLow zs
  if sorted.length = 1 then
    sorted.map fun z => { z with velLow := 0, velHigh := 127 }
  else
    (List.range sorted.length).map fun i =>
      let z := sorted.getD i default
      { z with
        velLow := (velLowF sorted.length i : ℤ),
        velHigh := if i = sorted.length - 1 then 127 else velHighF sorted.length i }

/-- The velocity bands exactly as the spec sentence states them:
`band_size = floor(128 / M)`, layer `i` gets `low = i·band_size`,
`high = (i+1)·band_size − 1`, except the last layer's high is forced
to 127. -/
def specVelocityBands (M : ℕ) : List (ℤ × ℤ) :=
  (List.range M).map fun i =>
    ((i * (128 / M) : ℕ), if i = M - 1 then 127 else ((i + 1) * (128 / M) - 1 : ℕ))

theorem length_sortByVelLow (zs : List VZone) : (sortByVelLow zs).length = zs.length :=
  (List.perm_insertionSort _ zs).length_eq

theorem length_assignVelocityRangesGroup (zs : List VZone) :
    (assignVelocityRangesGroup zs).length = zs.length := by
  rw [← length_sortByVelLow zs]
  unfold assignVelocityRangesGroup
  by_cases h : (sortByVelLow zs).length = 1 <;> simp [h]

theorem rangeSizeNum_ge (M : ℕ) (hM : 1 ≤ M) : 2 ^ 52 ≤ rangeSizeNum M := by
  have h1 : M * 2 ^ 52 ≤ 2 ^ (bitlen M + 52) := by
    calc M * 2 ^ 52 ≤ 2 ^ bitlen M * 2 ^ 52 :=
          Nat.mul_le_mul_right _ (le_of_lt (bitlen_lt M))
      _ = 2 ^ (bitlen M + 52) := by rw [← pow_add]
  exact rne_ge_of_le (by omega) h1

theorem rangeSizeNum_le (M : ℕ) (h : 1 ≤ M) : rangeSizeNum M ≤ 2 ^ 53 := by
  have hB := bitlen_pos h
  have h1 : 2 ^ (bitlen M + 52) ≤ M * 2 ^ 53 := by
    calc (2:ℕ) ^ (bitlen M + 52) = 2 ^ (bitlen M - 1) * 2 ^ 53 := by
          rw [← pow_add]
          congr 1
          omega
      _ ≤ M * 2 ^ 53 := Nat.mul_le_mul_right _ (bitlen_ge M h)
  exact rne_le_of_le (by omega) (mul_comm M (2 ^ 53) ▸ h1)

theorem velLowF_zero (M : ℕ) : velLowF M 0 = 0 := by
  rw [velLowF, Nat.zero_mul, fl53_zero, Nat.zero_div]

theorem velLowF_mono (M : ℕ) {i j : ℕ} (h : i ≤ j) : velLowF M i ≤ velLowF M j :=
  Nat.div_le_div_right (fl53_mono (Nat.mul_le_mul_right _ h))

/-- The numerator of the product `i * rangeSize`, `i ≤ M`, stays below
`2 ^ (bitlen M + 53)` — the product is below 256, so its rounding shift is at
most `bitlen M`, well under the scale `rangeSizeExp M`. -/
theorem mul_rangeSizeNum_lt (M i : ℕ) (hM : 1 ≤ M) (hi : i ≤ M) :
    i * rangeSizeNum M < 2 ^ (bitlen M + 53) := by
  calc i * rangeSizeNum M ≤ M * 2 ^ 53 :=
        Nat.mul_le_mul hi (rangeSizeNum_le M hM)
    _ < 2 ^ bitlen M * 2 ^ 53 :=
        (Nat.mul_lt_mul_right (pow_pos (by omega) _)).mpr (bitlen_lt M)
    _ = 2 ^ (bitlen M + 53) := by rw [← pow_add]

/-- `fl53 n ≤ 2 ^ (bitlen n - 53 + 53)` (also when `bitlen n ≤ 53`). -/
theorem fl53_le_shift (n : ℕ) : fl53 n ≤ 2 ^ ((bitlen n - 53) + 53) := by
  rcases Nat.lt_or_ge (bitlen n) 54 with hb | hb
  · have h1 : n < 2 ^ 53 := bitlen_le_iff.mp (by omega)
    rw [fl53_exact h1, (by omega : bitlen n - 53 + 53 = 53)]
    exact le_of_lt h1
  · have h1 : (bitlen n - 53) + 53 = bitlen n := by omega
    rw [h1]
    exact fl53_le_two_pow n

/-- Contiguity core: for `i + 1 ≤ M` the subtraction
`(i+1) * rangeSize - 1` is computed on the already rounded product `T`,
and its floor is exactly `⌊T⌋ - 1` — when `T ≥ 1` the subtraction is exact
(both are multiples of the product's rounding step with a 53-bit result),
and when `T < 1` both sides are `-1`/`0 - 1`. -/
theorem velHighF_succ (M i : ℕ) (hM : 2 ≤ M) (hi : i + 1 ≤ M) :
    velHighF M i = (velLowF M (i + 1) : ℤ) - 1 := by
  have hnlt : (i + 1) * rangeSizeNum M < 2 ^ (bitlen M + 53) :=
    mul_rangeSizeNum_lt M (i + 1) (by omega) hi
  set n := (i + 1) * rangeSizeNum M with hn
  set T := fl53 n with hT
  set s := bitlen n - 53 with hs
  set E := rangeSizeExp M with hE
  have hsE : s ≤ E := by
    have hb : bitlen n ≤ bitlen M + 53 := bitlen_le_iff.mpr hnlt
    rw [hs, hE, rangeSizeExp]
    omega
  have hTdvd : 2 ^ s ∣ T := by
    rw [hT, fl53, ← hs]
    exact dvd_mul_left _ _
  have hTle : T ≤ 2 ^ (s + 53) := by
    rw [hT, hs]
    exact fl53_le_shift n
  have hEpos : (0:ℕ) < 2 ^ E := pow_pos (by omega) E
  have hvl : velLowF M (i + 1) = T / 2 ^ E := rfl
  have hvh : velHighF M i = dyFloor (fl53Z ((T : ℤ) - 2 ^ E)) E := rfl
  rcases Nat.lt_or_ge T (2 ^ E) with hTlt | hTge
  · -- the product is below 1: its floor is 0 and the subtraction floors to -1
    have hvl0 : velLowF M (i + 1) = 0 := by
      rw [hvl]
      exact Nat.div_eq_of_lt hTlt
    have hcast : (T : ℤ) - (2 : ℤ) ^ E = -(((2 ^ E - T : ℕ) : ℤ)) := by
      have h1 : T ≤ 2 ^ E := le_of_lt hTlt
      push_cast [h1]
      ring
    have hapos : 0 < 2 ^ E - T := by omega
    have hfz : fl53Z ((T : ℤ) - (2 : ℤ) ^ E) = -(fl53 (2 ^ E - T) : ℤ) := by
      rw [hcast, fl53Z, if_neg (by omega), Int.natAbs_neg, Int.natAbs_ofNat]
    have hm1 : 1 ≤ fl53 (2 ^ E - T) := fl53_pos hapos
    have hm2 : fl53 (2 ^ E - T) ≤ 2 ^ E := by
      have h1 : fl53 (2 ^ E - T) ≤ fl53 (2 ^ E) := fl53_mono (by omega)
      have h2 : fl53 (2 ^ E) = 2 ^ E :=
        fl53_of_dvd E dvd_rfl (Nat.pow_lt_pow_right (by omega) (by omega))
      omega
    have hdy : dyFloor (-(fl53 (2 ^ E - T) : ℤ)) E = -1 := by
      rw [dyFloor, if_neg (by omega)]
      have hnat : (-(fl53 (2 ^ E - T) : ℤ)).natAbs = fl53 (2 ^ E - T) := by
        rw [Int.natAbs_neg, Int.natAbs_ofNat]
      rw [hnat]
      have hdiv : (fl53 (2 ^ E - T) + 2 ^ E - 1) / 2 ^ E = 1 := by
        apply Nat.div_eq_of_lt_le
        · generalize hP : (2:ℕ) ^ E = P at hm1 hm2 hEpos
          omega
        · generalize hP : (2:ℕ) ^ E = P at hm1 hm2 hEpos
          omega
      rw [hdiv]
      norm_num
    rw [hvh, hfz, hdy, hvl0]
    norm_num
  · -- the product is at least 1: `T - 1` is exactly representable
    have hsub_dvd : 2 ^ s ∣ T - 2 ^ E := Nat.dvd_sub' hTdvd (pow_dvd_pow 2 hsE)
    have hsub_lt : T - 2 ^ E < 2 ^ (s + 53) := by
      generalize hP : (2:ℕ) ^ E = P at hTge hEpos
      generalize hQ : (2:ℕ) ^ (s + 53) = Q at hTle
      omega
    have hfex : fl53 (T - 2 ^ E) = T - 2 ^ E := fl53_of_dvd s hsub_dvd hsub_lt
    have hcast : (T : ℤ) - (2 : ℤ) ^ E = ((T - 2 ^ E : ℕ) : ℤ) := by
      push_cast [hTge]
      ring
    have hfz : fl53Z ((T : ℤ) - (2 : ℤ) ^ E) = ((T - 2 ^ E : ℕ) : ℤ) := by
      rw [hcast, fl53Z, if_pos (Int.natCast_nonneg _), Int.toNat_ofNat, hfex]
    have hdy : dyFloor ((T - 2 ^ E : ℕ) : ℤ) E = (((T - 2 ^ E) / 2 ^ E : ℕ) : ℤ) := by
      rw [dyFloor, if_pos (Int.natCast_nonneg _), Int.toNat_ofNat]
    have hdiv : (T - 2 ^ E) / 2 ^ E + 1 = T / 2 ^ E := by
      have h1 := Nat.add_div_right (T - 2 ^ E) hEpos
      rw [Nat.sub_add_cancel hTge] at h1
      omega
    rw [hvh, hfz, hdy, hvl]
    have h2 : 1 ≤ T / 2 ^ E := (Nat.one_le_div_iff hEpos).mpr hTge
    generalize hu : (T - 2 ^ E) / 2 ^ E = u at hdiv ⊢
    generalize hw : T / 2 ^ E = w at hdiv h2 ⊢
    omega

/-- Error analysis for the last cut: for `2 ≤ M ≤ 2^51` the rounded product
`(M-1) * rangeSize` stays strictly below 128, hence its floor is at most
127.  (`M` is the length of a JavaScript array, so `M < 2^32` always holds
in the program; `2^51` is where the accumulated relative error `≈ M·2^-52`
could first reach the gap `128/M` below 128.) -/
theorem fl53_mul_last_lt (M : ℕ) (h2 : 2 ≤ M) (hM : M ≤ 2 ^ 51) :
    fl53 ((M - 1) * rangeSizeNum M) < 2 ^ (bitlen M + 52) := by
  rw [rangeSizeNum]
  set B := bitlen M with hB
  set m1 := rne (2 ^ (B + 52)) M with hm1
  set n := (M - 1) * m1 with hn
  set F := fl53 n with hF
  have hMub : M ≤ 2 ^ B := by
    rw [hB]
    exact le_of_lt (bitlen_lt M)
  have hup : 2 ^ 54 * F ≤ 2 ^ 54 * n + 2 * n := fl53_upper n
  have hr : 2 * M * m1 ≤ 2 * 2 ^ (B + 52) + M := rne_mul_le (by omega)
  have c1 : 2 ^ 54 * F ≤ (2 ^ 54 + 2) * n := by
    rw [add_mul]
    exact hup
  have c2 : 2 * M * n ≤ (M - 1) * (2 * 2 ^ (B + 52) + M) := by
    calc 2 * M * n = (M - 1) * (2 * M * m1) := by rw [hn]; ring
      _ ≤ (M - 1) * (2 * 2 ^ (B + 52) + M) := Nat.mul_le_mul_left _ hr
  have step1 : (2 ^ 54 + 2) * (2 * 2 ^ (B + 52) + M) ≤ 2 ^ B * (2 ^ 107 + 2 ^ 56) := by
    calc (2 ^ 54 + 2) * (2 * 2 ^ (B + 52) + M)
        ≤ (2 ^ 54 + 2) * (2 * 2 ^ (B + 52) + 2 ^ B) :=
          Nat.mul_le_mul_left _ (Nat.add_le_add_left hMub _)
      _ = (2 ^ 54 + 2) * (2 ^ 53 + 1) * 2 ^ B := by
          rw [pow_add]
          ring
      _ ≤ (2 ^ 107 + 2 ^ 56) * 2 ^ B := Nat.mul_le_mul_right _ (by norm_num)
      _ = 2 ^ B * (2 ^ 107 + 2 ^ 56) := by ring
  have hm51 : M - 1 < 2 ^ 51 :=
    lt_of_lt_of_le (Nat.sub_lt (by omega) (by omega)) hM
  have k1 : (M - 1) * 2 ^ 56 < 2 ^ 107 := by
    calc (M - 1) * 2 ^ 56 < 2 ^ 51 * 2 ^ 56 :=
          (Nat.mul_lt_mul_right (pow_pos (by omega) _)).mpr hm51
      _ = 2 ^ 107 := by norm_num
  have k2 : (M - 1) * (2 ^ 107 + 2 ^ 56) < M * 2 ^ 107 := by
    have e1 : M * 2 ^ 107 = (M - 1) * 2 ^ 107 + 2 ^ 107 := by
      have e2 : M = (M - 1) + 1 := by omega
      calc M * 2 ^ 107 = ((M - 1) + 1) * 2 ^ 107 := by rw [← e2]
        _ = (M - 1) * 2 ^ 107 + 2 ^ 107 := by ring
    calc (M - 1) * (2 ^ 107 + 2 ^ 56) = (M - 1) * 2 ^ 107 + (M - 1) * 2 ^ 56 := by
          ring
      _ < (M - 1) * 2 ^ 107 + 2 ^ 107 := Nat.add_lt_add_left k1 _
      _ = M * 2 ^ 107 := e1.symm
  have hchain : 2 * M * (2 ^ 54 * F) < 2 * M * (2 ^ 54 * (2 ^ B * 2 ^ 52)) := by
    calc 2 * M * (2 ^ 54 * F)
        ≤ 2 * M * ((2 ^ 54 + 2) * n) := Nat.mul_le_mul_left _ c1
      _ = (2 ^ 54 + 2) * (2 * M * n) := by ring
      _ ≤ (2 ^ 54 + 2) * ((M - 1) * (2 * 2 ^ (B + 52) + M)) :=
          Nat.mul_le_mul_left _ c2
      _ = (M - 1) * ((2 ^ 54 + 2) * (2 * 2 ^ (B + 52) + M)) := by ring
      _ ≤ (M - 1) * (2 ^ B * (2 ^ 107 + 2 ^ 56)) := Nat.mul_le_mul_left _ step1
      _ = 2 ^ B * ((M - 1) * (2 ^ 107 + 2 ^ 56)) := by ring
      _ < 2 ^ B * (M * 2 ^ 107) :=
          (Nat.mul_lt_mul_left (pow_pos (by omega) _)).mpr k2
      _ = 2 * M * (2 ^ 54 * (2 ^ B * 2 ^ 52)) := by ring
  have hFlt : 2 ^ 54 * F < 2 ^ 54 * (2 ^ B * 2 ^ 52) :=
    Nat.lt_of_mul_lt_mul_left hchain
  have hF2 : F < 2 ^ B * 2 ^ 52 := Nat.lt_of_mul_lt_mul_left hFlt
  calc F < 2 ^ B * 2 ^ 52 := hF2
    _ = 2 ^ (B + 52) := by rw [← pow_add]

theorem velLowF_le_127 (M : ℕ) (h2 : 2 ≤ M) (hM : M ≤ 2 ^ 51) {i : ℕ}
    (hi : i < M) : velLowF M i ≤ 127 := by
  have hmono := velLowF_mono M (show i ≤ M - 1 by omega)
  have hlast : velLowF M (M - 1) ≤ 127 := by
    have h := fl53_mul_last_lt M h2 hM
    rw [velLowF, rangeSizeExp]
    have hlt : fl53 ((M - 1) * rangeSizeNum M) / 2 ^ (bitlen M + 45) < 128 := by
      rw [Nat.div_lt_iff_lt_mul (pow_pos (by omega) _)]
      calc fl53 ((M - 1) * rangeSizeNum M) < 2 ^ (bitlen M + 52) := h
        _ = 128 * 2 ^ (bitlen M + 45) := by
            rw [(show (128:ℕ) = 2 ^ 7 by norm_num), ← pow_add]
            congr 1
            omega
    omega
  omega

theorem assignGroup_velLow (zs : List VZone) (h2 : 2 ≤ zs.length)
    {i : ℕ} (hi : i < zs.length) :
    ((assignVelocityRangesGroup zs).getD i default).velLow =
      (velLowF zs.length i : ℤ) := by
  have hlen := length_sortByVelLow zs
  unfold assignVelocityRangesGroup
  rw [if_neg (by omega)]
  rw [getD_map_range _ _ (by omega)]
  simp [hlen]

theorem assignGroup_velHigh (zs : List VZone) (h2 : 2 ≤ zs.length)
    {i : ℕ} (hi : i < zs.length) :
    ((assignVelocityRangesGroup zs).getD i default).velHigh =
      (if i = zs.length - 1 then (127:ℤ) else velHighF zs.length i) := by
  have hlen := length_sortByVelLow zs
  unfold assignVelocityRangesGroup
  rw [if_neg (by omega)]
  rw [getD_map_range _ _ (by omega)]
  by_cases hlast : i = zs.length - 1
  · rw [if_pos hlast]
    simp [hlen, hlast]
  · rw [if_neg hlast]
    simp [hlen, hlast]

/-- C4 (amended).  For a group of `M ≥ 2` zones sharing a root, after the
stable sort by velocity, layer `i` receives `low = Math.floor(i * rangeSize)`
and (except the last layer, forced to 127)
`high = Math.floor((i + 1) * rangeSize - 1)`, where `rangeSize` is the
*binary64 double* nearest `128 / M` and the product and the subtraction are
each rounded to nearest (ties to even) — the formulas `velLowF`/`velHighF`.
These are neither the claim's `floor(128/M)`-sized bands nor exact rational
arithmetic: in a 98-layer group the code gives layer 49 the low bound 63,
whereas the exact rational floor `⌊128·49/98⌋` is 64. -/
theorem assignVelocity_layer_bounds (zs : List VZone) (h2 : 2 ≤ zs.length)
    {i : ℕ} (hi : i < zs.length) :
    (((assignVelocityRangesGroup zs).getD i default).velLow =
        (velLowF zs.length i : ℤ) ∧
     ((assignVelocityRangesGroup zs).getD i default).velHigh =
        (if i = zs.length - 1 then (127:ℤ) else velHighF zs.length i)) ∧
    (velLowF 98 49 = 63 ∧ 128 * 49 / 98 = 64) :=
  ⟨⟨assignGroup_velLow zs h2 hi, assignGroup_velHigh zs h2 hi⟩,
    by decide, by norm_num⟩

/-- Witness for C4 (amended) at three zones with velocities 10, 20, 30:
layer 1 of 3 gets the velocity range `[42, 84]`. -/
theorem assignVelocity_layer_bounds_witness :
    ((assignVelocityRangesGroup
        [⟨"a", 60, 60, 60, 10, 10⟩, ⟨"b", 60, 60, 60, 20, 20⟩,
         ⟨"c", 60, 60, 60, 30, 30⟩]).getD 1 default).velLow = 42 ∧
    ((assignVelocityRangesGroup
        [⟨"a", 60, 60, 60, 10, 10⟩, ⟨"b", 60, 60, 60, 20, 20⟩,
         ⟨"c", 60, 60, 60, 30, 30⟩]).getD 1 default).velHigh = 84 := by
  have h := assignVelocity_layer_bounds
    [⟨"a", 60, 60, 60, 10, 10⟩, ⟨"b", 60, 60, 60, 20, 20⟩, ⟨"c", 60, 60, 60, 30, 30⟩]
    (by decide) (i := 1) (by decide)
  rcases h with ⟨⟨hl, hh⟩, -⟩
  refine ⟨?_, ?_⟩
  · rw [hl]
    decide
  · rw [hh, if_neg (by decide)]
    decide

/-- C4 counterexample: with `M = 3` the code's bands are
`(0,41), (42,84), (85,127)` whereas the claim's `band_size = floor(128/3) = 42`
bands are `(0,41), (42,83), (84,127)` — they differ at layer 1. -/
theorem velocity_band_size_counterexample :
    ((assignVelocityRangesGroup
        [⟨"a", 60, 60, 60, 10, 10⟩, ⟨"b", 60, 60, 60, 20, 20⟩,
         ⟨"c", 60, 60, 60, 30, 30⟩]).map fun z => (z.velLow, z.velHigh)) =
      [(0, 41), (42, 84), (85, 127)] ∧
    specVelocityBands 3 = [(0, 41), (42, 83), (84, 127)] ∧
    ((assignVelocityRangesGroup
        [⟨"a", 60, 60, 60, 10, 10⟩, ⟨"b", 60, 60, 60, 20, 20⟩,
         ⟨"c", 60, 60, 60, 30, 30⟩]).map fun z => (z.velLow, z.velHigh)) ≠
      specVelocityBands 3 := by
  refine ⟨by decide, by decide, by decide⟩

/-- C5.  For a group of `M ≥ 1` zones sharing one root note, the generated
velocity ranges partition `[0,127]` exactly: the first low is 0, consecutive
ranges are contiguous, the last high is 127, every `v ∈ [0,127]` lies in
exactly one range, and for `M = 1` the single layer is `[0,127]` regardless
of the zone's velocity hint.  The bound `M ≤ 2^51` keeps the accumulated
binary64 rounding error of `(M-1)·rangeSize` below the gap to 128; it covers
every group the program can form, since a JavaScript array holds fewer than
`2^32` elements. -/
theorem assignVelocity_ranges_partition (zs : List VZone) (h1 : 1 ≤ zs.length)
    (hM : zs.length ≤ 2 ^ 51) :
    ((assignVelocityRangesGroup zs).getD 0 default).velLow = 0 ∧
    ((assignVelocityRangesGroup zs).getD (zs.length - 1) default).velHigh = 127 ∧
    (∀ i, i + 1 < zs.length →
      ((assignVelocityRangesGroup zs).getD (i + 1) default).velLow =
        ((assignVelocityRangesGroup zs).getD i default).velHigh + 1) ∧
    (∀ v : ℤ, 0 ≤ v → v ≤ 127 → ∃! i, i < zs.length ∧
      ((assignVelocityRangesGroup zs).getD i default).velLow ≤ v ∧
      v ≤ ((assignVelocityRangesGroup zs).getD i default).velHigh) ∧
    (zs.length = 1 →
      (assignVelocityRangesGroup zs).map (fun z => (z.velLow, z.velHigh)) = [(0, 127)]) := by
  by_cases hone : zs.length = 1
  · -- single-zone branch of the source: the full range [0,127]
    have hlen := length_sortByVelLow zs
    obtain ⟨a, ha⟩ := List.length_eq_one.mp (hlen.trans hone)
    have hassign : assignVelocityRangesGroup zs =
        [{ a with velLow := 0, velHigh := 127 }] := by
      unfold assignVelocityRangesGroup
      rw [if_pos (by omega), ha]
      rfl
    refine ⟨?_, ?_, ?_, ?_, ?_⟩
    · rw [hassign]
      rfl
    · rw [hone, hassign]
      rfl
    · intro i hi
      omega
    · intro v hv0 hv127
      refine ⟨0, ⟨by omega, ?_, ?_⟩, ?_⟩
      · rw [hassign]
        simpa using hv0
      · rw [hassign]
        simpa using hv127
      · rintro j ⟨hj, _, _⟩
        omega
    · intro _
      rw [hassign]
      rfl
  · -- M ≥ 2
    have h2 : 2 ≤ zs.length := by omega
    have hc0 : velLowF zs.length 0 = 0 := velLowF_zero zs.length
    have hle127 : ∀ j, j < zs.length → velLowF zs.length j ≤ 127 :=
      fun j hj => velLowF_le_127 zs.length h2 hM hj
    refine ⟨?_, ?_, ?_, ?_, ?_⟩
    · rw [assignGroup_velLow zs h2 (by omega), hc0]
      norm_num
    · rw [assignGroup_velHigh zs h2 (by omega), if_pos rfl]
    · intro i hi
      rw [assignGroup_velLow zs h2 (by omega), assignGroup_velHigh zs h2 (by omega),
        if_neg (by omega), velHighF_succ zs.length i h2 (by omega)]
      ring
    · intro v hv0 hv127
      have hcmono : ∀ i j, i ≤ j → j ≤ zs.length →
          (if i < zs.length then velLowF zs.length i else 128) ≤
          (if j < zs.length then velLowF zs.length j else 128) := by
        intro i j hij hjM
        by_cases hiM : i < zs.length <;> by_cases hjM2 : j < zs.length
        · rw [if_pos hiM, if_pos hjM2]
          exact velLowF_mono zs.length hij
        · rw [if_pos hiM, if_neg hjM2]
          exact le_trans (hle127 i hiM) (by omega)
        · omega
        · rw [if_neg hiM, if_neg hjM2]
      have hcc0 : (if 0 < zs.length then velLowF zs.length 0 else 128) = 0 := by
        rw [if_pos (by omega), hc0]
      have hcN : (if zs.length < zs.length then velLowF zs.length zs.length else 128) =
          128 := by
        rw [if_neg (by omega)]
      have hex := cuts_mem_unique
        (fun j => if j < zs.length then velLowF zs.length j else 128) zs.length
        (by omega) hcmono hcc0 hcN v.toNat (by omega)
      have hmem : ∀ j, j < zs.length →
          ((((assignVelocityRangesGroup zs).getD j default).velLow ≤ v ∧
            v ≤ ((assignVelocityRangesGroup zs).getD j default).velHigh) ↔
          ((if j < zs.length then velLowF zs.length j else 128) ≤ v.toNat ∧
            v.toNat < (if j + 1 < zs.length then velLowF zs.length (j + 1) else 128))) := by
        intro j hj
        rw [assignGroup_velLow zs h2 hj, assignGroup_velHigh zs h2 hj, if_pos hj]
        by_cases hlast : j = zs.length - 1
        · rw [if_pos hlast, if_neg (by omega)]
          omega
        · rw [if_neg hlast, velHighF_succ zs.length j h2 (by omega), if_pos (by omega)]
          omega
      rcases hex with ⟨i0, ⟨hi0n, hci, hvi⟩, hu⟩
      refine ⟨i0, ⟨hi0n, (hmem i0 hi0n).mpr ⟨hci, hvi⟩⟩, ?_⟩
      rintro j ⟨hjn, hjm⟩
      obtain ⟨ha, hb⟩ := (hmem j hjn).mp hjm
      exact hu j ⟨hjn, ha, hb⟩
    · intro h
      omega

/-- Witness for C5: a single zone with velocity hint 90 receives exactly
`[0,127]`. -/
theorem assignVelocity_ranges_partition_witness :
    (assignVelocityRangesGroup [⟨"a", 60, 60, 60, 90, 90⟩]).map
      (fun z => (z.velLow, z.velHigh)) = [(0, 127)] := by
  have h := assignVelocity_ranges_partition [⟨"a", 60, 60, 60, 90, 90⟩]
    (by decide) (by norm_num)
  exact h.2.2.2.2 (by decide)


/-! ## MIDI track-event decoder (`MIDIConverter.parseTrackEvents`)

Track data is a byte list (each entry the value of a `Uint8Array` cell);
reads past the end (`data[pos]` on an out-of-range index) only occur on
truncated input and are modelled as the default 0.  The event record mirrors
the `MIDIEvent` TypeScript interface with its optional fields.  The `while`
loop is driven by fuel; every iteration consumes at least the one byte of
the delta-time, so `data.length` iterations always suffice. -/

structure MIDIEventR where
  type : String
  subtype : Option String := none
  deltaTime : ℕ := 0
  channel : Option ℕ := none
  noteNumber : Option ℕ := none
  velocity : Option ℕ := none
  controllerType : Option ℕ := none
  value : Option ℕ := none
  text : Option String := none
  metaType : Option ℕ := none
  key : Option ℕ := none
  scale : Option ℕ := none
  numerator : Option ℕ := none
  denominator : Option ℕ := none
  data : Option (List ℕ) := none
  deriving DecidableEq, Repr

/-- The variable-length-quantity `do … while` read: 7 payload bits per byte,
continuation while the top bit is set.  Returns the value and the new
position. -/
def readVarLen (data : List ℕ) : ℕ → ℕ → ℕ → ℕ × ℕ
  | 0, pos, acc => (acc, pos)
  | fuel + 1, pos, acc =>
    let b := data.getD pos 0
    let acc1 := (acc <<< 7) ||| (b &&& 0x7f)
    if b &&& 0x80 ≠ 0 then readVarLen data fuel (pos + 1) acc1 else (acc1, pos + 1)

/-- `new TextDecoder().decode(...)`, modelled bytewise (the texts this
development evaluates are ASCII, where UTF-8 decoding is the identity). -/
def decodeText (bytes : List ℕ) : String :=
  String.mk (bytes.map Char.ofNat)

/-- The meta-event `if`-chain of `parseTrackEvents` (status byte `0xff`). -/
def metaEvent (deltaTime metaType : ℕ) (metaData : List ℕ) : MIDIEventR :=
  if metaType = 0x01 then
    { type := "meta", subtype := some "text", deltaTime := deltaTime,
      text := some (decodeText metaData) }
  else if metaType = 0x03 then
    { type := "meta", subtype := some "trackName", deltaTime := deltaTime,
      text := some (decodeText metaData) }
  else if metaType = 0x51 then
    { type := "meta", subtype := some "tempo", deltaTime := deltaTime,
      value := some ((metaData.getD 0 0 <<< 16) ||| (metaData.getD 1 0 <<< 8) |||
        metaData.getD 2 0) }
  else if metaType = 0x58 then
    { type := "meta", subtype := some "timeSignature", deltaTime := deltaTime,
      numerator := some (metaData.getD 0 0),
      denominator := some (2 ^ metaData.getD 1 0) }
  else if metaType = 0x59 then
    { type := "meta", subtype := some "keySignature", deltaTime := deltaTime,
      key := some (metaData.getD 0 0), scale := some (metaData.getD 1 0) }
  else if metaType = 0x2f then
    { type := "meta", subtype := some "endOfTrack", deltaTime := deltaTime }
  else
    { type := "meta", metaType := some metaType, deltaTime := deltaTime,
      data := some metaData }

/-- The `while (pos < data.length)` loop of `MIDIConverter.parseTrackEvents`:
delta-time, running status, then dispatch on the status nibble.  The final
`else` branch is the source's unknown-event case: it logs a warning and
advances the position by two bytes, then keeps parsing. -/
def parseTrackEventsAux (data : List ℕ) : ℕ → ℕ → ℕ → List MIDIEventR
  | 0, _, _ => []
  | fuel + 1, pos, runningStatus =>
    if pos < data.length then
      let r := readVarLen data (data.length + 1) pos 0
      let deltaTime := r.1
      let p1 := r.2
      let et0 := data.getD p1 0
      let eventType := if et0 &&& 0x80 = 0 then runningStatus else et0
      let p2 := if et0 &&& 0x80 = 0 then p1 else p1 + 1
      let rs := if et0 &&& 0x80 = 0 then runningStatus else et0
      if eventType &&& 0xf0 = 0x80 then
        { type := "noteOff", deltaTime := deltaTime,
          channel := some (eventType &&& 0x0f),
          noteNumber := some (data.getD p2 0),
          velocity := some (data.getD (p2 + 1) 0) } ::
          parseTrackEventsAux data fuel (p2 + 2) rs
      else if eventType &&& 0xf0 = 0x90 then
        { type := if data.getD (p2 + 1) 0 = 0 then "noteOff" else "noteOn",
          deltaTime := deltaTime,
          channel := some (eventType &&& 0x0f),
          noteNumber := some (data.getD p2 0),
          velocity := some (data.getD (p2 + 1) 0) } ::
          parseTrackEventsAux data fuel (p2 + 2) rs
      else if eventType &&& 0xf0 = 0xa0 then
        { type := "noteAftertouch", deltaTime := deltaTime,
          channel := some (eventType &&& 0x0f),
          noteNumber := some (data.getD p2 0),
          value := some (data.getD (p2 + 1) 0) } ::
          parseTrackEventsAux data fuel (p2 + 2) rs
      else if eventType &&& 0xf0 = 0xb0 then
        { type := "controller", deltaTime := deltaTime,
          channel := some (eventType &&& 0x0f),
          controllerType := some (data.getD p2 0),
          value := some (data.getD (p2 + 1) 0) } ::
          parseTrackEventsAux data fuel (p2 + 2) rs
      else if eventType &&& 0xf0 = 0xc0 then
        { type := "programChange", deltaTime := deltaTime,
          channel := some (eventType &&& 0x0f),
          value := some (data.getD p2 0) } ::
          parseTrackEventsAux data fuel (p2 + 1) rs
      else if eventType &&& 0xf0 = 0xd0 then
        { type := "channelAftertouch", deltaTime := deltaTime,
          channel := some (eventType &&& 0x0f),
          value := some (data.getD p2 0) } ::
          parseTrackEventsAux data fuel (p2 + 1) rs
      else if eventType &&& 0xf0 = 0xe0 then
        { type := "pitchBend", deltaTime := deltaTime,
          channel := some (eventType &&& 0x0f),
          value := some ((data.getD (p2 + 1) 0 <<< 7) ||| data.getD p2 0) } ::
          parseTrackEventsAux data fuel (p2 + 2) rs
      else if eventType = 0xff then
        let metaType := data.getD p2 0
        let r2 := readVarLen data (data.length + 1) (p2 + 1) 0
        let len := r2.1
        let p3 := r2.2
        let metaData := (data.drop p3).take len
        metaEvent deltaTime metaType metaData ::
          parseTrackEventsAux data fuel (p3 + len) rs
      else
        -- Unknown event type: `console.warn` and `pos += 2` in the source.
        parseTrackEventsAux data fuel (p2 + 2) rs
    else []

/-- `MIDIConverter.parseTrackEvents` on the bytes of one `MTrk` chunk. -/
def parseTrackEvents (data : List ℕ) : List MIDIEventR :=
  parseTrackEventsAux data data.length 0 0

/-- C3.  The decoder does not fail on an unrecognized, non-meta status byte:
on the track bytes `00 F0 AA BB 00 90 3C 64`, whose second byte `F0` is not a
recognized channel-message nibble and not `FF`, the source logs a warning,
skips exactly two bytes, and goes on to decode the following note-on — it
produces an ordinary event list with no error value at all, contradicting
the claimed hard `FormatError` with byte offset. -/
theorem parseTrackEvents_skips_unknown_status :
    parseTrackEvents [0x00, 0xf0, 0xaa, 0xbb, 0x00, 0x90, 0x3c, 0x64] =
      [{ type := "noteOn", deltaTime := 0, channel := some 0,
         noteNumber := some 0x3c, velocity := some 0x64 }] := by
  decide

/-! ## Pattern Converter projections (`convertToProgression`, `convertToMPCPattern`) -/

structure MIDINoteR where
  note : ℕ
  velocity : ℕ
  time : ℕ
  duration : ℕ
  channel : ℕ
  deriving DecidableEq, Repr, Inhabited

structure MIDITrackR where
  name : Option String := none
  events : List MIDIEventR := []
  notes : List MIDINoteR := []
  deriving DecidableEq, Repr

structure MIDIHeaderR where
  format : ℕ
  numTracks : ℕ
  ticksPerBeat : ℕ
  deriving DecidableEq, Repr

structure MIDIDataR where
  header : MIDIHeaderR
  tracks : List MIDITrackR
  deriving DecidableEq, Repr

/-- `Math.round(a / b)` for non-negative operands, `b > 0`:
`⌊a/b + 1/2⌋ = ⌊(2a + b) / 2b⌋`. -/
def jsRoundDiv (a b : ℕ) : ℕ := (2 * a + b) / (2 * b)

/-- Truthiness of `event.type === "meta" && event.subtype === "tempo" && event.value`
(both a missing `value` and the value `0` are falsy). -/
def tempoTruthy (e : MIDIEventR) : Bool :=
  e.type == "meta" && e.subtype == some "tempo" && e.value.getD 0 != 0

def tsTruthy (e : MIDIEventR) : Bool :=
  e.type == "meta" && e.subtype == some "timeSignature" &&
    e.numerator.getD 0 != 0 && e.denominator.getD 0 != 0

def nameTruthy (e : MIDIEventR) : Bool :=
  e.type == "meta" && e.subtype == some "trackName" && e.text.getD "" != ""

structure MetaAcc where
  bpm : ℕ
  tsNum : ℕ
  tsDen : ℕ
  trackName : String
  deriving DecidableEq, Repr

/-- One step of the tempo/time-signature/track-name extraction loop shared by
`convertToProgression` and `convertToMPCPattern`: each matching meta event
overwrites the accumulated value. -/
def metaStep (acc : MetaAcc) (e : MIDIEventR) : MetaAcc :=
  { bpm := if tempoTruthy e then jsRoundDiv 60000000 (e.value.getD 0) else acc.bpm,
    tsNum := if tsTruthy e then e.numerator.getD 0 else acc.tsNum,
    tsDen := if tsTruthy e then e.denominator.getD 0 else acc.tsDen,
    trackName := if nameTruthy e then e.text.getD "" else acc.trackName }

/-- The `for (const track of midiData.tracks) { for (const event of track.events) … }`
double loop, started from the defaults `bpm = 120`, `4/4`, `""`. -/
def extractMeta (tracks : List MIDITrackR) : MetaAcc :=
  tracks.foldl (fun acc t => t.events.foldl metaStep acc) ⟨120, 4, 4, ""⟩

structure ProgressionMetaR where
  source : String
  bpm : ℕ
  tsNum : ℕ
  tsDen : ℕ
  name : Option String
  deriving DecidableEq, Repr

structure ProgressionDataR where
  notes : List MIDINoteR
  meta : ProgressionMetaR
  deriving DecidableEq, Repr

/-- `MIDIConverter.convertToProgression`: merge all tracks' notes, stable-sort
by start time, extract bpm / time signature / name. -/
def convertToProgression (d : MIDIDataR) : ProgressionDataR :=
  let allNotes := (d.tracks.flatMap (·.notes)).insertionSort (fun a b => a.time < b.time)
  let m := extractMeta d.tracks
  { notes := allNotes,
    meta := { source := "midi", bpm := m.bpm, tsNum := m.tsNum, tsDen := m.tsDen,
              name := if m.trackName = "" then none else some m.trackName } }

/-- The spec's stated bpm rule (C6/C7 wording): `round(60,000,000 / v)` for `v`
the value of the *first* tempo meta event in the file, 120 when there is
none. -/
def specBpmFirstTempo (d : MIDIDataR) : ℕ :=
  match (d.tracks.flatMap (·.events)).find?
      (fun e => e.type == "meta" && e.subtype == some "tempo") with
  | some e => jsRoundDiv 60000000 (e.value.getD 0)
  | none => 120

/-- The last tempo meta event with a truthy (non-zero, present) value. -/
def lastTempoValue (evs : List MIDIEventR) : Option ℕ :=
  ((evs.filter tempoTruthy).getLast?).map (fun e => e.value.getD 0)

theorem foldl_metaStep_bpm (evs : List MIDIEventR) (acc : MetaAcc) :
    (evs.foldl metaStep acc).bpm =
      match lastTempoValue evs with
      | some v => jsRoundDiv 60000000 v
      | none => acc.bpm := by
  induction evs generalizing acc with
  | nil => rfl
  | cons e t ih =>
    rw [List.foldl_cons, ih]
    unfold lastTempoValue
    by_cases hP : tempoTruthy e
    · rw [List.filter_cons_of_pos hP]
      by_cases ht : t.filter tempoTruthy = []
      · rw [ht]
        simp [metaStep, hP, ht]
      · obtain ⟨y, ys, hys⟩ := List.exists_cons_of_ne_nil ht
        rw [hys, List.getLast?_cons_cons]
        obtain ⟨z, hz⟩ := Option.isSome_iff_exists.mp
          ((List.getLast?_isSome (l := y :: ys)).mpr (by simp))
        rw [hz]
        rfl
    · rw [List.filter_cons_of_neg (by simpa using hP)]
      simp [metaStep, hP]

theorem extractMeta_eq_flat (tracks : List MIDITrackR) (acc : MetaAcc) :
    tracks.foldl (fun a t => t.events.foldl metaStep a) acc =
      (tracks.flatMap (·.events)).foldl metaStep acc := by
  induction tracks generalizing acc with
  | nil => rfl
  | cons t ts ih => simp [List.foldl_append, ih]

/-- C7 (amended).  The flat projection's bpm is `round(60,000,000 / v)` for
`v` the value of the *last* tempo meta event with a truthy (present,
non-zero) value, in track-major document order — each tempo event overwrites
the previous bpm — and 120 when there is none; a tempo value of 500000
yields bpm = 120 exactly. -/
theorem progression_bpm_last_tempo (d : MIDIDataR) :
    ((convertToProgression d).meta.bpm =
      match lastTempoValue (d.tracks.flatMap (·.events)) with
      | some v => jsRoundDiv 60000000 v
      | none => 120) ∧
    jsRoundDiv 60000000 500000 = 120 := by
  refine ⟨?_, by decide⟩
  show (extractMeta d.tracks).bpm = _
  rw [extractMeta, extractMeta_eq_flat, foldl_metaStep_bpm]

/-- C7 counterexample: a decoded file whose track carries two tempo meta
events, 500000 then 1000000 microseconds per quarter.  The claim's rule
(first tempo event) gives bpm = 120, but the code's loop keeps overwriting
and returns the last one's bpm = 60. -/
theorem progression_bpm_counterexample :
    (convertToProgression
      { header := { format := 0, numTracks := 1, ticksPerBeat := 480 },
        tracks := [{ events :=
          [{ type := "meta", subtype := some "tempo", value := some 500000 },
           { type := "meta", subtype := some "tempo", value := some 1000000 }] }] }).meta.bpm
      = 60 ∧
    specBpmFirstTempo
      { header := { format := 0, numTracks := 1, ticksPerBeat := 480 },
        tracks := [{ events :=
          [{ type := "meta", subtype := some "tempo", value := some 500000 },
           { type := "meta", subtype := some "tempo", value := some 1000000 }] }] }
      = 120 := by
  refine ⟨by decide, by decide⟩

/-! ## Grid projection grouping (`MIDIConverter.convertToMPCPattern`)

```ts
const trackId = padMapping ? padMapping.get(note.note) || note.note : note.channel
```

The supplied `Map<number, number>` is modelled as an association list
(`List.lookup` = `Map.get`); `|| note.note` is the JavaScript falsy
fallback, so both a missing entry (`undefined`) and the mapped value `0`
fall back to the note number.  `notesByTrack` is a `Map` keyed by the track
id in first-insertion order; the notes are visited in track-major order, so
the grouping below takes the flattened note list. -/

def mpcTrackId (padMapping : Option (List (ℕ × ℕ))) (n : MIDINoteR) : ℕ :=
  match padMapping with
  | some m =>
    match m.lookup n.note with
    | some p => if p = 0 then n.note else p
    | none => n.note
  | none => n.channel

/-- First-occurrence key order of a JavaScript `Map` built by repeated
insertion (fuel-driven so that it evaluates in the kernel). -/
def firstOccsF : ℕ → List ℕ → List ℕ
  | 0, _ => []
  | _ + 1, [] => []
  | fuel + 1, x :: xs => x :: firstOccsF fuel (xs.filter (fun y => y ≠ x))

def firstOccs (l : List ℕ) : List ℕ := firstOccsF l.length l

theorem mem_of_mem_firstOccsF {x : ℕ} :
    ∀ (fuel : ℕ) (l : List ℕ), x ∈ firstOccsF fuel l → x ∈ l := by
  intro fuel
  induction fuel with
  | zero => intro l h; simp [firstOccsF] at h
  | succ f ih =>
    intro l h
    match l with
    | [] => simp [firstOccsF] at h
    | y :: ys =>
      rw [firstOccsF] at h
      rcases List.mem_cons.mp h with h1 | h2
      · exact h1 ▸ List.mem_cons_self _ _
      · exact List.mem_cons_of_mem _ (List.mem_of_mem_filter (ih _ h2))

theorem mem_of_mem_firstOccs {x : ℕ} {l : List ℕ} (h : x ∈ firstOccs l) : x ∈ l :=
  mem_of_mem_firstOccsF _ _ h

structure MPCEventR where
  tick : ℕ
  duration : ℕ
  velocity : ℕ
  probability : ℚ
  deriving DecidableEq, Repr

structure MPCTrackR where
  id : String
  name : String
  padId : ℕ
  events : List MPCEventR
  deriving DecidableEq, Repr

/-- The `notesByTrack` grouping and track construction of
`MIDIConverter.convertToMPCPattern`, over the flattened note list. -/
def mpcTracksOf (notes : List MIDINoteR) (padMapping : Option (List (ℕ × ℕ))) :
    List MPCTrackR :=
  (firstOccs (notes.map (mpcTrackId padMapping))).map fun tid =>
    { id := "track_" ++ toString tid,
      name := "Track " ++ toString tid,
      padId := tid,
      events := (notes.filter (fun n => mpcTrackId padMapping n = tid)).map fun n =>
        { tick := n.time, duration := n.duration, velocity := n.velocity,
          probability := 1 } }

/-- C10 (amended).  With a supplied note→pad mapping the fallback is
per-note: a note whose number has no entry, or whose entry is pad 0, is
grouped under its own note number; grouping by channel happens only when no
mapping at all is supplied.  However a supplied mapping *can* produce a
track for pad 0: exactly when some note has note number 0 and note 0 is
unmapped or mapped to 0. -/
theorem mpcPattern_grouping_fallback (notes : List MIDINoteR)
    (m : List (ℕ × ℕ)) (n : MIDINoteR) :
    (m.lookup n.note = none ∨ m.lookup n.note = some 0 →
      mpcTrackId (some m) n = n.note) ∧
    mpcTrackId none n = n.channel ∧
    (∀ t ∈ mpcTracksOf notes (some m), t.padId = 0 →
      ∃ n0 ∈ notes, n0.note = 0 ∧
        (m.lookup 0 = none ∨ m.lookup 0 = some 0)) := by
  refine ⟨?_, rfl, ?_⟩
  · rintro (h | h) <;> simp [mpcTrackId, h]
  · intro t ht hpad
    obtain ⟨tid, htid, hteq⟩ := List.mem_map.mp ht
    have htid0 : tid = 0 := by rw [← hteq] at hpad; exact hpad
    subst htid0
    have h0 := mem_of_mem_firstOccs htid
    obtain ⟨n0, hn0, hf⟩ := List.mem_map.mp h0
    refine ⟨n0, hn0, ?_⟩
    have hf' : (match m.lookup n0.note with
        | some p => if p = 0 then n0.note else p
        | none => n0.note) = 0 := hf
    rcases hlook : m.lookup n0.note with _ | p
    · rw [hlook] at hf'
      simp only at hf'
      rw [hf'] at hlook
      exact ⟨hf', Or.inl hlook⟩
    · rw [hlook] at hf'
      simp only at hf'
      by_cases hp : p = 0
      · subst hp
        rw [if_pos rfl] at hf'
        rw [hf'] at hlook
        exact ⟨hf', Or.inr hlook⟩
      · rw [if_neg hp] at hf'
        exact absurd hf' hp

/-- Witness for C10 (amended) at a concrete unmapped note. -/
theorem mpcPattern_grouping_fallback_witness :
    mpcTrackId (some [(60, 3)]) ⟨61, 100, 0, 480, 9⟩ = 61 ∧
    mpcTrackId none ⟨61, 100, 0, 480, 9⟩ = 9 := by
  have h := mpcPattern_grouping_fallback [] [(60, 3)] ⟨61, 100, 0, 480, 9⟩
  exact ⟨h.1 (Or.inl (by decide)), h.2.1⟩

/-- C10 counterexample: the supplied (empty) mapping with a single note of
note number 0 on channel 5 produces exactly one track, and its pad id is 0 —
not the channel 5 — so a supplied mapping *can* produce a track for pad 0. -/
theorem mpcPattern_pad0_counterexample :
    (mpcTracksOf [⟨0, 100, 0, 480, 5⟩] (some [])).map (fun t => t.padId) = [0] := by
  decide

/-! ## Instrument validator (`validateInstrument`, `parseVelocityLayers`)

`parseVelocityLayers` groups layers by `rootKey` (a JavaScript object keyed
by the integer root, iterated in ascending numeric key order) and, per root
with more than one layer, first checks for missing velocity bounds and then
runs the `i`/`j` double loop: for each `i` it scans the later layers `j`,
skips pairs with missing bounds, and on the first overlapping partner pushes
one issue and `break`s — out of the inner loop only. -/

structure VLayer where
  sample : String
  rootKey : Option ℤ := none
  lowKey : Option ℤ := none
  highKey : Option ℤ := none
  lowVelocity : Option ℤ := none
  highVelocity : Option ℤ := none
  deriving DecidableEq, Repr, Inhabited

/-- `layerA.lowVelocity <= layerB.highVelocity && layerB.lowVelocity <= layerA.highVelocity`,
`false` (the loop's `continue`) when any of the four bounds is undefined. -/
def layersOverlapB (a b : VLayer) : Bool :=
  match a.lowVelocity, a.highVelocity, b.lowVelocity, b.highVelocity with
  | some al, some ah, some bl, some bh => decide (al ≤ bh) && decide (bl ≤ ah)
  | _, _, _, _ => false

/-- Whether the scan of layer `i` finds an overlapping later partner (the
inner `j` loop pushes exactly one issue when it does). -/
def hasLaterOverlap (ls : List VLayer) (i : ℕ) : Bool :=
  (ls.drop (i + 1)).any fun b => layersOverlapB (ls.getD i default) b

def missingMsg (rootKey : ℤ) : String :=
  "Missing velocity range for some layers with root key " ++ toString rootKey

def overlapMsg (rootKey : ℤ) : String :=
  "Overlapping velocity ranges for root key " ++ toString rootKey

def pitchMsg (name : String) : String := "Pitch not detected in: " ++ name

/-- The per-root body of `parseVelocityLayers`. -/
def rootGroupIssues (rootKey : ℤ) (rootLayers : List VLayer) : List String :=
  if 1 < rootLayers.length then
    (if rootLayers.any (fun l => l.lowVelocity.isNone || l.highVelocity.isNone)
      then [missingMsg rootKey] else []) ++
    ((List.range rootLayers.length).filterMap fun i =>
      if hasLaterOverlap rootLayers i then some (overlapMsg rootKey) else none)
  else []

/-- The distinct root keys, in the ascending order a JavaScript `for…in`
visits integer-like object keys. -/
def sortedRootKeys (layers : List VLayer) : List ℤ :=
  ((layers.filterMap (·.rootKey)).dedup).insertionSort fun a b => a < b

/-- `parseVelocityLayers`: the issue list (its `valid` flag is set to `false`
exactly when an issue is pushed, so `valid ↔ issues = []`). -/
def parseVelocityLayers (layers : List VLayer) : List String :=
  (sortedRootKeys layers).flatMap fun k =>
    rootGroupIssues k (layers.filter fun l => l.rootKey == some k)

inductive VStatus where
  | valid
  | invalid
  deriving DecidableEq, Repr

structure VReport where
  status : VStatus
  issues : List String
  samplesValidated : ℕ
  deriving DecidableEq, Repr

/-- Per-sample input of `validateInstrument`: `hasBuffer` is the
`sample.buffer` check, `detectThrows`/`errText` model the `try/catch` around
the external `detectPitch` call, `pitchDetect` its result (an
`EstimationFailure` is `none`) and `filenamePitch` the result of
`extractPitchFromFilename(sample.name)`. -/
structure SampleV where
  name : String
  hasBuffer : Bool
  detectThrows : Bool
  errText : String
  pitchDetect : Option ℤ
  filenamePitch : Option ℤ
  deriving DecidableEq, Repr

/-- The body of the `for (const sample of samples)` loop of
`validateInstrument`, threading the report and the layer list. -/
def validateStep (acc : VReport × List VLayer) (s : SampleV) : VReport × List VLayer :=
  let r := acc.1
  let layers := acc.2
  if !s.hasBuffer then
    ({ r with
        status := .invalid,
        issues := r.issues ++ ["Sample " ++ s.name ++ " has no audio data."] }, layers)
  else if s.detectThrows then
    ({ r with
        status := .invalid,
        issues := r.issues ++ ["Error analyzing sample " ++ s.name ++ ": " ++ s.errText] },
     layers)
  else
    match s.pitchDetect with
    | some p =>
      ({ r with samplesValidated := r.samplesValidated + 1 },
       layers ++ [{ sample := s.name, rootKey := some p }])
    | none =>
      match s.filenamePitch with
      | some p =>
        ({ r with samplesValidated := r.samplesValidated + 1 },
         layers ++ [{ sample := s.name, rootKey := some p }])
      | none =>
        -- the only issue-pushing path that does NOT set status to invalid
        ({ r with
            issues := r.issues ++ [pitchMsg s.name],
            samplesValidated := r.samplesValidated + 1 },
         layers ++ [{ sample := s.name }])

/-- The tail of `validateInstrument`: run `parseVelocityLayers` on the
collected layers and, when it raised issues (`!velocityCheck.valid`), mark
the report invalid and append them. -/
def validateFinish (acc : VReport × List VLayer) : VReport :=
  if (parseVelocityLayers acc.2).isEmpty then acc.1
  else
    { acc.1 with
        status := .invalid,
        issues := acc.1.issues ++ parseVelocityLayers acc.2 }

/-- `validateInstrument`: empty-registry check, per-sample loop, velocity
check. -/
def validateInstrument (samples : List SampleV) : VReport :=
  if samples.isEmpty then
    { status := .invalid, issues := ["No samples found in instrument."],
      samplesValidated := 0 }
  else
    validateFinish (samples.foldl validateStep
      ({ status := .valid, issues := [], samplesValidated := 0 }, []))

/-! ### String discrimination helpers -/

theorem string_append_head (s : String) (c : Char) (rest : List Char) (x : String)
    (h : s.data = c :: rest) : (s ++ x).data.head? = some c := by
  rw [String.data_append, h]; rfl

theorem string_ne_of_head_ne {s t : String} {c d : Char} (hs : s.data.head? = some c)
    (ht : t.data.head? = some d) (h : c ≠ d) : s ≠ t := by
  intro he
  rw [he, ht] at hs
  exact h (Option.some.inj hs).symm

theorem missingMsg_ne_overlapMsg (k k' : ℤ) : missingMsg k ≠ overlapMsg k' :=
  string_ne_of_head_ne (string_append_head _ 'M' _ _ rfl)
    (string_append_head _ 'O' _ _ rfl) (by decide)

theorem missingMsg_not_pitch (k : ℤ) (n : String) : missingMsg k ≠ pitchMsg n :=
  string_ne_of_head_ne (string_append_head _ 'M' _ _ rfl)
    (string_append_head _ 'P' _ _ rfl) (by decide)

theorem overlapMsg_not_pitch (k : ℤ) (n : String) : overlapMsg k ≠ pitchMsg n :=
  string_ne_of_head_ne (string_append_head _ 'O' _ _ rfl)
    (string_append_head _ 'P' _ _ rfl) (by decide)

theorem noAudioMsg_not_pitch (s n : String) :
    "Sample " ++ s ++ " has no audio data." ≠ pitchMsg n := by
  have h1 : ("Sample " ++ s ++ " has no audio data.").data.head? = some 'S' := by
    rw [String.append_assoc]
    exact string_append_head _ 'S' _ _ rfl
  exact string_ne_of_head_ne h1 (string_append_head _ 'P' _ _ rfl) (by decide)

theorem errorMsg_not_pitch (s e n : String) :
    "Error analyzing sample " ++ s ++ ": " ++ e ≠ pitchMsg n := by
  have h1 : ("Error analyzing sample " ++ s ++ ": " ++ e).data.head? = some 'E' := by
    rw [String.append_assoc, String.append_assoc]
    exact string_append_head _ 'E' _ _ rfl
  exact string_ne_of_head_ne h1 (string_append_head _ 'P' _ _ rfl) (by decide)

theorem noSamplesMsg_not_pitch (n : String) :
    "No samples found in instrument." ≠ pitchMsg n := by
  have h1 : ("No samples found in instrument." ++ "").data.head? = some 'N' :=
    string_append_head _ 'N' _ _ rfl
  rw [String.append_empty] at h1
  exact string_ne_of_head_ne h1 (string_append_head _ 'P' _ _ rfl) (by decide)

/-! ### C8: one overlap issue per scanned layer, not per pair -/

theorem count_filterMap_if (p : ℕ → Bool) (c : String) (l : List ℕ) :
    ((l.filterMap fun i => if p i then some c else none).count c) =
      (l.filter p).length := by
  induction l with
  | nil => rfl
  | cons x t ih =>
    by_cases hp : p x
    · simp [List.filterMap_cons, hp, ih]
    · simp [List.filterMap_cons, hp, ih]

/-- C8 (amended).  The validator's overlap scan reports "overlapping velocity
ranges" once per layer index that has a later overlapping partner — the
`break` only leaves the inner loop — so a root with `M` layers can receive up
to `M − 1` such issues (not at most one); for two layers `[0,70]` and
`[60,127]` sharing a root it reports exactly one. -/
theorem overlap_issue_per_scanned_layer (root : ℤ) (ls : List VLayer) :
    (rootGroupIssues root ls).count (overlapMsg root) =
      ((List.range ls.length).filter (hasLaterOverlap ls)).length ∧
    ((List.range ls.length).filter (hasLaterOverlap ls)).length ≤
      ls.length - 1 ∧
    (rootGroupIssues 60 [⟨"a", some 60, none, none, some 0, some 70⟩,
        ⟨"b", some 60, none, none, some 60, some 127⟩]).count (overlapMsg 60) = 1 := by
  refine ⟨?_, ?_, by decide⟩
  · by_cases hlen : 1 < ls.length
    · unfold rootGroupIssues
      rw [if_pos hlen, List.count_append, count_filterMap_if]
      have hmiss : (if ls.any fun l => l.lowVelocity.isNone || l.highVelocity.isNone
          then [missingMsg root] else []).count (overlapMsg root) = 0 := by
        by_cases ha : ls.any fun l => l.lowVelocity.isNone || l.highVelocity.isNone
        · rw [if_pos ha]
          simp [List.count_singleton, missingMsg_ne_overlapMsg root root]
        · rw [if_neg ha]; rfl
      omega
    · unfold rootGroupIssues
      rw [if_neg hlen]
      rcases (by omega : ls.length = 0 ∨ ls.length = 1) with h0 | h1
      · simp [h0]
      · have hno : hasLaterOverlap ls 0 = false := by
          unfold hasLaterOverlap
          rw [show (0 : ℕ) + 1 = ls.length from by omega, List.drop_length]
          rfl
        rw [h1, List.range_succ]
        simp [hno]
  · by_cases h0 : ls.length = 0
    · simp [h0]
    · have h1 : ls.length = (ls.length - 1) + 1 := by omega
      rw [h1, List.range_succ, List.filter_append, List.length_append]
      have hlast : hasLaterOverlap ls (ls.length - 1) = false := by
        unfold hasLaterOverlap
        rw [show ls.length - 1 + 1 = ls.length by omega, List.drop_length]
        rfl
      rw [List.filter_cons, hlast]
      simp only [Bool.false_eq_true, if_false, List.filter_nil, List.length_nil,
        List.length_append]
      have := List.length_filter_le (hasLaterOverlap ls) (List.range (ls.length - 1))
      rw [List.length_range] at this
      omega

/-- C8 counterexample: three mutually overlapping layers sharing root 60
make the validator report the overlap issue twice for that root (the `break`
only leaves the inner loop), refuting "at most once per root". -/
theorem overlap_once_per_root_counterexample :
    (rootGroupIssues 60 [⟨"a", some 60, none, none, some 0, some 127⟩,
        ⟨"b", some 60, none, none, some 0, some 127⟩,
        ⟨"c", some 60, none, none, some 0, some 127⟩]).count (overlapMsg 60) = 2 := by
  decide

/-! ### C9: report status versus the issue list -/

theorem mem_rootGroupIssues {root : ℤ} {ls : List VLayer} {m : String}
    (hm : m ∈ rootGroupIssues root ls) :
    m = missingMsg root ∨ m = overlapMsg root := by
  unfold rootGroupIssues at hm
  by_cases hlen : 1 < ls.length
  · rw [if_pos hlen] at hm
    rcases List.mem_append.mp hm with h1 | h2
    · by_cases ha : ls.any fun l => l.lowVelocity.isNone || l.highVelocity.isNone
      · rw [if_pos ha] at h1
        exact Or.inl (List.mem_singleton.mp h1)
      · rw [if_neg ha] at h1
        exact absurd h1 (List.not_mem_nil m)
    · obtain ⟨i, _, hi⟩ := List.mem_filterMap.mp h2
      by_cases ho : hasLaterOverlap ls i
      · rw [if_pos ho] at hi
        exact Or.inr (Option.some.inj hi).symm
      · rw [if_neg ho] at hi
        exact absurd hi (Option.noConfusion)
  · rw [if_neg hlen] at hm
    exact absurd hm (List.not_mem_nil m)

theorem mem_parseVelocityLayers {layers : List VLayer} {m : String}
    (hm : m ∈ parseVelocityLayers layers) :
    ∃ k, m = missingMsg k ∨ m = overlapMsg k := by
  unfold parseVelocityLayers at hm
  obtain ⟨k, _, hmk⟩ := List.mem_flatMap.mp hm
  exact ⟨k, mem_rootGroupIssues hmk⟩

/-- The status/issues invariant: the report is valid exactly when every
issue so far is a pitch-not-detected warning. -/
def reportInv (r : VReport) : Prop :=
  r.status = .valid ↔ ∀ i ∈ r.issues, ∃ name, i = pitchMsg name

theorem validateStep_inv (acc : VReport × List VLayer) (s : SampleV)
    (h : reportInv acc.1) : reportInv (validateStep acc s).1 := by
  unfold validateStep reportInv at *
  by_cases hb : s.hasBuffer
  · rw [if_neg (by simp [hb])]
    by_cases hthrow : s.detectThrows
    · rw [if_pos hthrow]
      constructor
      · intro habs; exact absurd habs (by simp)
      · intro hall
        exfalso
        obtain ⟨n, hn⟩ := hall ("Error analyzing sample " ++ s.name ++ ": " ++ s.errText)
          (List.mem_append_right _ (List.mem_singleton.mpr rfl))
        exact errorMsg_not_pitch s.name s.errText n hn
    · rw [if_neg hthrow]
      cases hp : s.pitchDetect with
      | some p => exact h
      | none =>
        cases hf : s.filenamePitch with
        | some p => exact h
        | none =>
          simp only
          constructor
          · intro hv i hi
            rcases List.mem_append.mp hi with h1 | h2
            · exact (h.mp hv) i h1
            · exact ⟨s.name, List.mem_singleton.mp h2⟩
          · intro hall
            exact h.mpr fun i hi => hall i (List.mem_append_left _ hi)
  · rw [if_pos (by simp [hb])]
    constructor
    · intro habs; exact absurd habs (by simp)
    · intro hall
      exfalso
      obtain ⟨n, hn⟩ := hall ("Sample " ++ s.name ++ " has no audio data.")
        (List.mem_append_right _ (List.mem_singleton.mpr rfl))
      exact noAudioMsg_not_pitch s.name n hn

theorem foldl_validateStep_inv (samples : List SampleV)
    (acc : VReport × List VLayer) (h : reportInv acc.1) :
    reportInv ((samples.foldl validateStep acc).1) := by
  induction samples generalizing acc with
  | nil => exact h
  | cons s t ih => exact ih _ (validateStep_inv acc s h)

/-- C9 (amended).  The validation report's status is "valid" iff every
raised issue is a pitch-not-detected warning: every issue-appending path
except `Pitch not detected in: …` also sets the status to "invalid" (so
zero issues still means "valid"), but that one path appends an issue while
leaving the status "valid". -/
theorem validate_status_iff_pitch_warnings (samples : List SampleV) :
    (validateInstrument samples).status = .valid ↔
      ∀ i ∈ (validateInstrument samples).issues, ∃ name, i = pitchMsg name := by
  unfold validateInstrument
  by_cases hemp : samples.isEmpty
  · rw [if_pos hemp]
    constructor
    · intro habs; exact absurd habs (by simp)
    · intro hall
      exfalso
      obtain ⟨n, hn⟩ := hall "No samples found in instrument." (List.mem_singleton.mpr rfl)
      exact noSamplesMsg_not_pitch n hn
  · rw [if_neg hemp]
    have hinv := foldl_validateStep_inv samples
      ({ status := .valid, issues := [], samplesValidated := 0 }, [])
      (by constructor <;> intro <;> simp_all)
    unfold validateFinish
    by_cases hv : (parseVelocityLayers
        ((samples.foldl validateStep
          ({ status := .valid, issues := [], samplesValidated := 0 }, [])).2)).isEmpty
    · rw [if_pos hv]
      exact hinv
    · rw [if_neg hv]
      constructor
      · intro habs; exact absurd habs (by simp)
      · intro hall
        exfalso
        obtain ⟨m, hmem⟩ := List.exists_mem_of_ne_nil _
          (by simpa [List.isEmpty_iff] using hv)
        obtain ⟨n, hn⟩ := hall m (List.mem_append_right _ hmem)
        obtain ⟨k, hk | hk⟩ := mem_parseVelocityLayers hmem
        · exact missingMsg_not_pitch k n (hk ▸ hn)
        · exact overlapMsg_not_pitch k n (hk ▸ hn)

/-- C9 counterexample: one sample with audio but no detectable pitch (and no
note name in its filename) gets the issue `Pitch not detected in: kick`
appended while the status stays "valid" — so "status valid iff zero issues"
fails as stated. -/
theorem validate_pitch_warning_counterexample :
    (validateInstrument [⟨"kick", true, false, "", none, none⟩]).status =
      VStatus.valid ∧
    (validateInstrument [⟨"kick", true, false, "", none, none⟩]).issues =
      ["Pitch not detected in: kick"] := by
  refine ⟨by decide, by decide⟩

/-! ## Program codec: numbers in attribute strings

The writer interpolates JavaScript numbers into attributes (`${midiNote}`,
decimal rendering); the reader recovers them with `Number.parseInt(s, 10)`
(skip whitespace, optional sign, longest digit prefix, `NaN` — modelled as
`none` — when there is no digit). -/

def digitChar (d : ℕ) : Char := Char.ofNat (48 + d)

def isDigitC (c : Char) : Bool := 48 ≤ c.toNat && c.toNat ≤ 57

def jsWhitespace (c : Char) : Bool := c = ' ' || c = '\t' || c = '\n' || c = '\r'

/-- Decimal digits of `n`, most significant first (fuel-driven: `fuel ≥ n`
always suffices). -/
def natCharsAux : ℕ → ℕ → List Char
  | 0, _ => []
  | fuel + 1, n => if n = 0 then [] else natCharsAux fuel (n / 10) ++ [digitChar (n % 10)]

/-- The decimal rendering `String(n)` of a non-negative JavaScript number. -/
def natToStr (n : ℕ) : String := if n = 0 then "0" else String.mk (natCharsAux n n)

def digitsVal (l : List Char) : ℕ := l.foldl (fun a c => 10 * a + (c.toNat - 48)) 0

def parseDigitPrefix (l : List Char) : Option ℕ :=
  if (l.takeWhile isDigitC).isEmpty then none else some (digitsVal (l.takeWhile isDigitC))

/-- `Number.parseInt(s, 10)`: `none` models `NaN`. -/
def jsParseInt (s : String) : Option ℤ :=
  match s.data.dropWhile jsWhitespace with
  | [] => none
  | c :: rest =>
    if c = '-' then (parseDigitPrefix rest).map fun n => -(n : ℤ)
    else if c = '+' then (parseDigitPrefix rest).map fun n => (n : ℤ)
    else (parseDigitPrefix (c :: rest)).map fun n => (n : ℤ)

theorem digitChar_toNat : ∀ d, d < 10 → (digitChar d).toNat - 48 = d := by decide

theorem digitChar_isDigit : ∀ d, d < 10 → isDigitC (digitChar d) = true := by decide

theorem natCharsAux_all_digits :
    ∀ fuel n, n ≤ fuel → ∀ c ∈ natCharsAux fuel n, isDigitC c = true := by
  intro fuel
  induction fuel with
  | zero => intro n hn c hc; simp [natCharsAux] at hc
  | succ f ih =>
    intro n hn c hc
    rw [natCharsAux] at hc
    by_cases h0 : n = 0
    · simp [h0] at hc
    · rw [if_neg h0] at hc
      rcases List.mem_append.mp hc with h1 | h2
      · exact ih (n / 10) (by omega) c h1
      · rw [List.mem_singleton.mp h2]
        exact digitChar_isDigit (n % 10) (Nat.mod_lt n (by omega))

theorem foldl_natCharsAux :
    ∀ fuel n a, n ≤ fuel →
      List.foldl (fun x c => 10 * x + (c.toNat - 48)) a (natCharsAux fuel n) =
        a * 10 ^ (natCharsAux fuel n).length + n := by
  intro fuel
  induction fuel with
  | zero =>
    intro n a hn
    have h0 : n = 0 := by omega
    simp [natCharsAux, h0]
  | succ f ih =>
    intro n a hn
    rw [natCharsAux]
    by_cases h0 : n = 0
    · simp [h0]
    · rw [if_neg h0, List.foldl_append, List.length_append]
      simp only [List.foldl_cons, List.foldl_nil, List.length_singleton]
      rw [ih (n / 10) a (by omega)]
      rw [digitChar_toNat (n % 10) (Nat.mod_lt n (by omega))]
      rw [pow_succ, ← mul_assoc]
      generalize a * 10 ^ (natCharsAux f (n / 10)).length = B
      omega

theorem natCharsAux_ne_nil {n : ℕ} (h0 : n ≠ 0) {fuel : ℕ} (hf : n ≤ fuel) :
    natCharsAux fuel n ≠ [] := by
  cases fuel with
  | zero => omega
  | succ f =>
    rw [natCharsAux, if_neg h0]
    simp

theorem isDigit_not_ws {c : Char} (h : isDigitC c = true) : jsWhitespace c = false := by
  by_contra hws
  have hws' : jsWhitespace c = true := by
    cases hcc : jsWhitespace c
    · exact absurd hcc hws
    · rfl
  unfold jsWhitespace at hws'
  simp only [Bool.or_eq_true, decide_eq_true_eq] at hws'
  rcases hws' with ((h1 | h2) | h3) | h4 <;> subst_vars <;> exact absurd h (by decide)

theorem isDigit_ne_minus {c : Char} (h : isDigitC c = true) : c ≠ '-' := by
  intro he; subst he; exact absurd h (by decide)

theorem isDigit_ne_plus {c : Char} (h : isDigitC c = true) : c ≠ '+' := by
  intro he; subst he; exact absurd h (by decide)

theorem takeWhile_all {l : List Char} (h : ∀ c ∈ l, isDigitC c = true) :
    l.takeWhile isDigitC = l := by
  induction l with
  | nil => rfl
  | cons c t ih =>
    rw [List.takeWhile_cons, h c (List.mem_cons_self c t)]
    simp [ih fun x hx => h x (List.mem_cons_of_mem c hx)]

/-- Parsing the decimal rendering recovers the number. -/
theorem jsParseInt_natToStr (n : ℕ) : jsParseInt (natToStr n) = some (n : ℤ) := by
  by_cases h0 : n = 0
  · subst h0; decide
  · unfold natToStr
    rw [if_neg h0]
    unfold jsParseInt
    have hdigits := natCharsAux_all_digits n n (le_refl n)
    obtain ⟨c, t, hct⟩ := List.exists_cons_of_ne_nil (natCharsAux_ne_nil h0 (le_refl n))
    have hdata : (String.mk (natCharsAux n n)).data = c :: t := by rw [hct]
    rw [hdata]
    have hcd : isDigitC c = true := by
      apply hdigits; rw [hct]; exact List.mem_cons_self c t
    rw [List.dropWhile_cons, isDigit_not_ws hcd]
    simp only [Bool.false_eq_true, if_false]
    rw [if_neg (isDigit_ne_minus hcd), if_neg (isDigit_ne_plus hcd)]
    unfold parseDigitPrefix
    have htake : (c :: t).takeWhile isDigitC = c :: t := by
      apply takeWhile_all
      intro x hx; apply hdigits; rw [hct]; exact hx
    rw [htake]
    simp only [List.isEmpty_cons, if_false, Bool.false_eq_true]
    unfold digitsVal
    rw [← hct]
    rw [foldl_natCharsAux n n 0 (le_refl n)]
    simp

theorem natToStr_ne_empty (n : ℕ) : natToStr n ≠ "" := by
  unfold natToStr
  by_cases h0 : n = 0
  · rw [if_pos h0]; decide
  · rw [if_neg h0]
    obtain ⟨c, t, hct⟩ := List.exists_cons_of_ne_nil (natCharsAux_ne_nil h0 (le_refl n))
    rw [hct]
    intro he
    have := congrArg String.data he
    simp at this

/-! ## Program codec: DOM documents as element trees

A parsed XML document is a tree of elements with attribute lists.
`getAttribute` returns the first binding of a key (`lookup`);
`querySelectorAll` on the document is the pre-order list of all elements
with a given tag name, and on an element the same over its proper
descendants (which is how the reader uses it). -/

inductive XNode where
  | elem (name : String) (attrs : List (String × String)) (children : List XNode)
  deriving Repr

instance : Inhabited XNode := ⟨.elem "" [] []⟩

def elemName : XNode → String
  | .elem n _ _ => n

def elemChildren : XNode → List XNode
  | .elem _ _ c => c

/-- `el.getAttribute(k)` (`none` models `null`). -/
def getAttr : XNode → String → Option String
  | .elem _ attrs _, k => attrs.lookup k

mutual

def subtreeNamed (nm : String) : XNode → List XNode
  | .elem n a c => (if n = nm then [XNode.elem n a c] else []) ++ subtreeNamedL nm c

def subtreeNamedL (nm : String) : List XNode → List XNode
  | [] => []
  | x :: xs => subtreeNamed nm x ++ subtreeNamedL nm xs

end

/-- `xmlDoc.querySelectorAll(nm)` (the document's element list includes the
root element). -/
def docQueryAll (doc : XNode) (nm : String) : List XNode := subtreeNamed nm doc

/-- `el.querySelectorAll(nm)`: proper descendants only. -/
def elemQueryAll (el : XNode) (nm : String) : List XNode :=
  subtreeNamedL nm (elemChildren el)

/-- `el.querySelector(nm)`. -/
def elemQueryFirst (el : XNode) (nm : String) : Option XNode :=
  (elemQueryAll el nm).head?

/-- `el.getAttribute(k) || dflt` (the empty string is falsy). -/
def attrOr (el : XNode) (k dflt : String) : String :=
  match getAttr el k with
  | some v => if v = "" then dflt else v
  | none => dflt

/-- `el?.getAttribute(k) || dflt`. -/
def optAttrOr (el : Option XNode) (k dflt : String) : String :=
  match el with
  | some e => attrOr e k dflt
  | none => dflt

/-! ### Writer: `XPMGenerator.generateInstrumentXPM`

The writer receives the auto-mapped key mapping; `sortedEntries` is its
entry list sorted ascending by MIDI note (`Map` entries, so the keys are
distinct; entries are never null, so the `if (!sample) return` guard never
fires).  Besides the `<?xml …?>` declaration line it emits exactly the
elements and attributes modelled here. -/

structure SampleR where
  name : String
  deriving DecidableEq, Repr, Inhabited

structure XPMOptionsR where
  name : String
  useRelativePaths : Bool := true
  outputDirectory : Option String := none
  deriving Repr

/-- `sampleName.replace(/[\\/:*?"<>|]/g, "_")`. -/
def cleanChar (c : Char) : Char :=
  if ['\\', '/', ':', '*', '?', '"', '<', '>', '|'].contains c then '_' else c

/-- `XPMGenerator.formatSamplePath`. -/
def formatSamplePath (opts : XPMOptionsR) (sampleName : String) : String :=
  if !opts.useRelativePaths then sampleName
  else
    match opts.outputDirectory with
    | some _ => "./samples/" ++ String.mk (sampleName.data.map cleanChar)
    | none => "samples/" ++ String.mk (sampleName.data.map cleanChar)

/-- The `<Keygroup index="i">` element the writer emits for entry `index` of
the sorted key mapping. -/
def kgElemOf (opts : XPMOptionsR) (entries : List (ℕ × SampleR)) (index : ℕ) : XNode :=
  let midiNote := (entries.getD index default).1
  let sample := (entries.getD index default).2
  let samplePath := formatSamplePath opts sample.name
  let lowKey := if 0 < index
    then ((entries.getD (index - 1) default).1 + midiNote) / 2 + 1 else 0
  let highKey := if index < entries.length - 1
    then (midiNote + (entries.getD (index + 1) default).1) / 2 else 127
  .elem "Keygroup" [("index", natToStr index)] [
    .elem "Zone" [] [
      .elem "Sample" [("name", sample.name), ("path", samplePath)] [],
      .elem "KeyRange" [("root", natToStr midiNote), ("low", natToStr lowKey),
        ("high", natToStr highKey)] [],
      .elem "VelocityRange" [("low", "1"), ("high", "127")] []]]

/-- `XPMGenerator.generateInstrumentXPM` as the element tree it writes. -/
def generateInstrumentXPMTree (opts : XPMOptionsR) (entries : List (ℕ × SampleR)) :
    XNode :=
  .elem "KeygroupProgram" [("name", opts.name)] [
    .elem "Keygroups" [] ((List.range entries.length).map (kgElemOf opts entries))]

/-! ### Reader: `XPMImporter.extractKeygroups` -/

structure XPMSampleR where
  name : String
  path : String
  deriving DecidableEq, Repr

structure XPMKeyRangeR where
  root : Option ℤ
  low : Option ℤ
  high : Option ℤ
  deriving DecidableEq, Repr

structure XPMZoneR where
  sample : XPMSampleR
  keyRange : XPMKeyRangeR
  velLow : Option ℤ
  velHigh : Option ℤ
  deriving DecidableEq, Repr

structure XPMKeygroupR where
  index : Option ℤ
  zones : List XPMZoneR
  deriving DecidableEq, Repr

/-- The per-`<Zone>` body of `extractKeygroups` (zones without a `<Sample>`
child are skipped). -/
def extractZone (z : XNode) : Option XPMZoneR :=
  match elemQueryFirst z "Sample" with
  | none => none
  | some se =>
    some
      { sample :=
          { name := attrOr se "name" "",
            path := attrOr se "path" (attrOr se "name" "") },
        keyRange :=
          { root := jsParseInt (optAttrOr (elemQueryFirst z "KeyRange") "root" "60"),
            low := jsParseInt (optAttrOr (elemQueryFirst z "KeyRange") "low" "0"),
            high := jsParseInt (optAttrOr (elemQueryFirst z "KeyRange") "high" "127") },
        velLow := jsParseInt (optAttrOr (elemQueryFirst z "VelocityRange") "low" "1"),
        velHigh := jsParseInt (optAttrOr (elemQueryFirst z "VelocityRange") "high" "127") }

/-- `XPMImporter.extractKeygroups`. -/
def extractKeygroups (doc : XNode) : List XPMKeygroupR :=
  (List.range (docQueryAll doc "Keygroup").length).map fun index =>
    { index := jsParseInt
        (attrOr ((docQueryAll doc "Keygroup").getD index default) "index" (natToStr index)),
      zones := (elemQueryAll ((docQueryAll doc "Keygroup").getD index default) "Zone").filterMap
        extractZone }

/-! ### Round trip -/

theorem attrOr_default_self (nm : String) : (if nm = "" then "" else nm) = nm := by
  by_cases h : nm = "" <;> simp [h]

theorem formatSamplePath_empty {opts : XPMOptionsR} {nm : String}
    (h : formatSamplePath opts nm = "") : nm = "" := by
  unfold formatSamplePath at h
  by_cases hrel : opts.useRelativePaths
  · rw [if_neg (by simp [hrel])] at h
    exfalso
    cases hdir : opts.outputDirectory with
    | some d =>
      rw [hdir] at h
      have := congrArg String.data h
      rw [String.data_append] at this
      simp at this
    | none =>
      rw [hdir] at h
      have := congrArg String.data h
      rw [String.data_append] at this
      simp at this
  · rw [if_pos (by simp [hrel])] at h
    exact h

theorem flatMap_pure {α β : Type} (f : α → β) (l : List α) :
    (l.flatMap fun i => [f i]) = l.map f := by
  induction l <;> simp [*]

theorem subtreeNamedL_eq_flatMap (nm : String) (xs : List XNode) :
    subtreeNamedL nm xs = xs.flatMap (subtreeNamed nm) := by
  induction xs with
  | nil => rfl
  | cons x t ih => rw [subtreeNamedL, ih, List.flatMap_cons]

theorem subtreeNamed_kgElem (opts : XPMOptionsR) (entries : List (ℕ × SampleR)) (i : ℕ) :
    subtreeNamed "Keygroup" (kgElemOf opts entries i) = [kgElemOf opts entries i] := by
  have h1 : ("Zone" : String) = "Keygroup" ↔ False := by simp
  have h2 : ("Sample" : String) = "Keygroup" ↔ False := by simp
  have h3 : ("KeyRange" : String) = "Keygroup" ↔ False := by simp
  have h4 : ("VelocityRange" : String) = "Keygroup" ↔ False := by simp
  simp [kgElemOf, subtreeNamed, subtreeNamedL, h1, h2, h3, h4]

theorem docQueryAll_writer (opts : XPMOptionsR) (entries : List (ℕ × SampleR)) :
    docQueryAll (generateInstrumentXPMTree opts entries) "Keygroup" =
      (List.range entries.length).map (kgElemOf opts entries) := by
  have h1 : ("KeygroupProgram" : String) = "Keygroup" ↔ False := by simp
  have h2 : ("Keygroups" : String) = "Keygroup" ↔ False := by simp
  unfold docQueryAll generateInstrumentXPMTree
  rw [subtreeNamed]
  rw [if_neg (by simp)]
  rw [subtreeNamedL, subtreeNamed, if_neg (by simp), subtreeNamedL]
  rw [subtreeNamedL_eq_flatMap, List.flatMap_map]
  simp only [List.nil_append, List.append_nil]
  rw [show (fun i => subtreeNamed "Keygroup" (kgElemOf opts entries i)) =
      (fun i => [kgElemOf opts entries i]) from funext fun i => subtreeNamed_kgElem opts entries i]
  exact flatMap_pure _ _

theorem getD_map_fst (l : List (ℕ × SampleR)) (j : ℕ) :
    (l.map Prod.fst).getD j 0 = (l.getD j default).1 := by
  induction l generalizing j with
  | nil => cases j <;> rfl
  | cons x t ih =>
    cases j with
    | zero => rfl
    | succ k => simpa [List.getD_cons_succ] using ih k

theorem extractZone_writer (opts : XPMOptionsR) (entries : List (ℕ × SampleR)) (i : ℕ) :
    (elemQueryAll (kgElemOf opts entries i) "Zone").filterMap extractZone =
      [{ sample :=
           { name := (entries.getD i default).2.name,
             path := formatSamplePath opts (entries.getD i default).2.name },
         keyRange :=
           { root := some (((entries.getD i default).1 : ℕ) : ℤ),
             low := some ((kgLow (entries.map Prod.fst) i : ℕ) : ℤ),
             high := some ((kgHigh (entries.map Prod.fst) i : ℕ) : ℤ) },
         velLow := some 1,
         velHigh := some 127 }] := by
  have hzq : elemQueryAll (kgElemOf opts entries i) "Zone" =
      [XNode.elem "Zone" []
        [.elem "Sample" [("name", (entries.getD i default).2.name),
           ("path", formatSamplePath opts (entries.getD i default).2.name)] [],
         .elem "KeyRange" [("root", natToStr (entries.getD i default).1),
           ("low", natToStr (if 0 < i
             then ((entries.getD (i - 1) default).1 + (entries.getD i default).1) / 2 + 1
             else 0)),
           ("high", natToStr (if i < entries.length - 1
             then ((entries.getD i default).1 + (entries.getD (i + 1) default).1) / 2
             else 127))] [],
         .elem "VelocityRange" [("low", "1"), ("high", "127")] []]] := by
    have h2 : ("Sample" : String) = "Zone" ↔ False := by simp
    have h3 : ("KeyRange" : String) = "Zone" ↔ False := by simp
    have h4 : ("VelocityRange" : String) = "Zone" ↔ False := by simp
    simp [kgElemOf, elemQueryAll, elemChildren, subtreeNamed, subtreeNamedL, h2, h3, h4]
  rw [hzq]
  rw [List.filterMap_cons, List.filterMap_nil]
  have hsq : elemQueryFirst (XNode.elem "Zone" []
      [.elem "Sample" [("name", (entries.getD i default).2.name),
         ("path", formatSamplePath opts (entries.getD i default).2.name)] [],
       .elem "KeyRange" [("root", natToStr (entries.getD i default).1),
         ("low", natToStr (if 0 < i
           then ((entries.getD (i - 1) default).1 + (entries.getD i default).1) / 2 + 1
           else 0)),
         ("high", natToStr (if i < entries.length - 1
           then ((entries.getD i default).1 + (entries.getD (i + 1) default).1) / 2
           else 127))] [],
       .elem "VelocityRange" [("low", "1"), ("high", "127")] []]) "Sample" =
      some (.elem "Sample" [("name", (entries.getD i default).2.name),
        ("path", formatSamplePath opts (entries.getD i default).2.name)] []) := by
    have h3 : ("KeyRange" : String) = "Sample" ↔ False := by simp
    have h4 : ("VelocityRange" : String) = "Sample" ↔ False := by simp
    simp [elemQueryFirst, elemQueryAll, elemChildren, subtreeNamed, subtreeNamedL, h3, h4]
  rw [extractZone, hsq]
  have hkr : elemQueryFirst (XNode.elem "Zone" []
      [.elem "Sample" [("name", (entries.getD i default).2.name),
         ("path", formatSamplePath opts (entries.getD i default).2.name)] [],
       .elem "KeyRange" [("root", natToStr (entries.getD i default).1),
         ("low", natToStr (if 0 < i
           then ((entries.getD (i - 1) default).1 + (entries.getD i default).1) / 2 + 1
           else 0)),
         ("high", natToStr (if i < entries.length - 1
           then ((entries.getD i default).1 + (entries.getD (i + 1) default).1) / 2
           else 127))] [],
       .elem "VelocityRange" [("low", "1"), ("high", "127")] []]) "KeyRange" =
      some (.elem "KeyRange" [("root", natToStr (entries.getD i default).1),
        ("low", natToStr (if 0 < i
          then ((entries.getD (i - 1) default).1 + (entries.getD i default).1) / 2 + 1
          else 0)),
        ("high", natToStr (if i < entries.length - 1
          then ((entries.getD i default).1 + (entries.getD (i + 1) default).1) / 2
          else 127))] []) := by
    have h2 : ("Sample" : String) = "KeyRange" ↔ False := by simp
    have h4 : ("VelocityRange" : String) = "KeyRange" ↔ False := by simp
    simp [elemQueryFirst, elemQueryAll, elemChildren, subtreeNamed, subtreeNamedL, h2, h4]
  have hvr : elemQueryFirst (XNode.elem "Zone" []
      [.elem "Sample" [("name", (entries.getD i default).2.name),
         ("path", formatSamplePath opts (entries.getD i default).2.name)] [],
       .elem "KeyRange" [("root", natToStr (entries.getD i default).1),
         ("low", natToStr (if 0 < i
           then ((entries.getD (i - 1) default).1 + (entries.getD i default).1) / 2 + 1
           else 0)),
         ("high", natToStr (if i < entries.length - 1
           then ((entries.getD i default).1 + (entries.getD (i + 1) default).1) / 2
           else 127))] [],
       .elem "VelocityRange" [("low", "1"), ("high", "127")] []]) "VelocityRange" =
      some (.elem "VelocityRange" [("low", "1"), ("high", "127")] []) := by
    have h2 : ("Sample" : String) = "VelocityRange" ↔ False := by simp
    have h3 : ("KeyRange" : String) = "VelocityRange" ↔ False := by simp
    simp [elemQueryFirst, elemQueryAll, elemChildren, subtreeNamed, subtreeNamedL, h2, h3]
  rw [hkr, hvr]
  have hlow : (if 0 < i
      then ((entries.getD (i - 1) default).1 + (entries.getD i default).1) / 2 + 1
      else 0) = kgLow (entries.map Prod.fst) i := by
    unfold kgLow
    by_cases h0 : i = 0
    · simp [h0]
    · rw [if_pos (by omega), if_neg h0, getD_map_fst, getD_map_fst]
  have hhigh : (if i < entries.length - 1
      then ((entries.getD i default).1 + (entries.getD (i + 1) default).1) / 2
      else 127) = kgHigh (entries.map Prod.fst) i := by
    unfold kgHigh
    rw [List.length_map]
    by_cases hl : i < entries.length - 1
    · rw [if_pos hl, if_pos hl, getD_map_fst, getD_map_fst]
    · rw [if_neg hl, if_neg hl]
  have hpath : (if formatSamplePath opts (entries.getD i default).2.name = ""
      then (if (entries.getD i default).2.name = "" then ""
            else (entries.getD i default).2.name)
      else formatSamplePath opts (entries.getD i default).2.name) =
      formatSamplePath opts (entries.getD i default).2.name := by
    by_cases hf : formatSamplePath opts (entries.getD i default).2.name = ""
    · rw [if_pos hf, hf, if_pos (formatSamplePath_empty hf)]
    · rw [if_neg hf]
  simp only [optAttrOr, attrOr, getAttr, List.lookup]
  simp only [show (("name" : String) == "name") = true from by decide,
    show (("path" : String) == "name") = false from by decide,
    show (("path" : String) == "path") = true from by decide,
    show (("root" : String) == "root") = true from by decide,
    show (("low" : String) == "root") = false from by decide,
    show (("low" : String) == "low") = true from by decide,
    show (("high" : String) == "root") = false from by decide,
    show (("high" : String) == "low") = false from by decide,
    show (("high" : String) == "high") = true from by decide]
  simp only [attrOr_default_self, hpath, hlow, hhigh]
  rw [if_neg (natToStr_ne_empty _), if_neg (natToStr_ne_empty _),
    if_neg (natToStr_ne_empty _)]
  rw [jsParseInt_natToStr, jsParseInt_natToStr, jsParseInt_natToStr]
  norm_num
  refine ⟨?_, ?_⟩
  · intro hf
    have hn := formatSamplePath_empty hf
    rw [hn] at hf ⊢
    exact hf.symm
  · decide

/-- C2.  Writing any auto-mapped key mapping with
`XPMGenerator.generateInstrumentXPM` and reading the result back with
`XPMImporter.extractKeygroups` yields a structurally equivalent program:
keygroup `i` is read back with index `i` and exactly one zone whose sample
name/path, key-range and velocity-range numeric bounds are the ones
written; in particular the keygroup/zone count equals the entry count and
every zone's key range coincides with the auto-mapper's keygroup bounds for
the same root-note sequence. -/
theorem xpm_write_read_roundtrip (opts : XPMOptionsR) (entries : List (ℕ × SampleR)) :
    extractKeygroups (generateInstrumentXPMTree opts entries) =
      (List.range entries.length).map (fun i =>
        { index := some (i : ℤ),
          zones := [{
            sample := { name := (entries.getD i default).2.name,
                        path := formatSamplePath opts (entries.getD i default).2.name },
            keyRange := { root := some (((entries.getD i default).1 : ℕ) : ℤ),
                          low := some ((kgLow (entries.map Prod.fst) i : ℕ) : ℤ),
                          high := some ((kgHigh (entries.map Prod.fst) i : ℕ) : ℤ) },
            velLow := some 1, velHigh := some 127 }] }) ∧
    (extractKeygroups (generateInstrumentXPMTree opts entries)).length = entries.length ∧
    ((extractKeygroups (generateInstrumentXPMTree opts entries)).map fun kg =>
        kg.zones.map fun z => z.keyRange) =
      (autoMapKeygroups (entries.map Prod.fst)).map fun k =>
        [{ root := some ((k.rootNote : ℕ) : ℤ), low := some ((k.lowNote : ℕ) : ℤ),
           high := some ((k.highNote : ℕ) : ℤ) }] := by
  have hmain : extractKeygroups (generateInstrumentXPMTree opts entries) =
      (List.range entries.length).map (fun i =>
        { index := some (i : ℤ),
          zones := [{
            sample := { name := (entries.getD i default).2.name,
                        path := formatSamplePath opts (entries.getD i default).2.name },
            keyRange := { root := some (((entries.getD i default).1 : ℕ) : ℤ),
                          low := some ((kgLow (entries.map Prod.fst) i : ℕ) : ℤ),
                          high := some ((kgHigh (entries.map Prod.fst) i : ℕ) : ℤ) },
            velLow := some 1, velHigh := some 127 }] }) := by
    unfold extractKeygroups
    rw [docQueryAll_writer, length_map_range]
    refine List.map_congr_left fun i hi => ?_
    have hin : i < entries.length := List.mem_range.mp hi
    rw [getD_map_range _ _ hin]
    have hidx : attrOr (kgElemOf opts entries i) "index" (natToStr i) = natToStr i := by
      have hlk : getAttr (kgElemOf opts entries i) "index" = some (natToStr i) := by
        simp [kgElemOf, getAttr, List.lookup]
      rw [attrOr, hlk]
      simp [natToStr_ne_empty i]
    rw [hidx, jsParseInt_natToStr, extractZone_writer]
  refine ⟨hmain, ?_, ?_⟩
  · rw [hmain, length_map_range]
  · rw [hmain]
    unfold autoMapKeygroups
    rw [List.length_map entries Prod.fst, List.map_map, List.map_map]
    refine List.map_congr_left fun i hi => ?_
    simp only [Function.comp_apply, List.map_cons, List.map_nil]
    rw [getD_map_fst]

/-! ## Codec textual repair pass (`XPMUtils.fixXPMContent`)

The repair operates on the raw document text before any parsing.  It is
embedded over `List Char` with fuel-driven scanners (fuel = remaining
length always suffices; every step consumes at least one character).

* declaration: `if (!xpmContent.includes("<?xml")) prepend the declaration`;
* sample attributes: `xpmContent.replace(/<Sample([^>]*)>/g, …)` fills a
  missing `path="…"` from the `name="…"` attribute
  (`/name="([^"]+)"/.exec(attributes)`);
* closing tags: for each known tag name, in order, count matches of the
  regex `<tag[^>]*>` (which also matches longer tag names extending `tag`,
  e.g. `<Pads>` for `Pad`) and literal occurrences of `</tag>`, and append
  the deficit of `</tag>\n` at the end of the (growing) document. -/

def startsWithL : List Char → List Char → Bool
  | [], _ => true
  | _ :: _, [] => false
  | p :: ps, c :: cs => p == c && startsWithL ps cs

def hasSubstr (pat : List Char) : List Char → Bool
  | [] => startsWithL pat []
  | c :: cs => startsWithL pat (c :: cs) || hasSubstr pat cs

def xmlDeclPat : List Char := ['<', '?', 'x', 'm', 'l']

def xmlDeclFull : List Char := "<?xml version=\"1.0\" encoding=\"UTF-8\"?>\n".data

/-- Declaration pass. -/
def fixDecl (s : List Char) : List Char :=
  if hasSubstr xmlDeclPat s then s else xmlDeclFull ++ s

def sampleOpenPat : List Char := ['<', 'S', 'a', 'm', 'p', 'l', 'e']

def pathEqPat : List Char := ['p', 'a', 't', 'h', '=']

def nameEqPat : List Char := ['n', 'a', 'm', 'e', '=', '"']

/-- One match of `/<Sample([^>]*)>/` at the head of `s`: the captured
attribute text and the remainder after the `>`. -/
def matchSampleTag (s : List Char) : Option (List Char × List Char) :=
  if startsWithL sampleOpenPat s then
    match (s.drop 7).findIdx? (fun c => c == '>') with
    | some k => some ((s.drop 7).take k, (s.drop 7).drop (k + 1))
    | none => none
  else none

/-- First match of `/name="([^"]+)"/` (non-empty capture). -/
def findNameVal : List Char → Option (List Char)
  | [] => none
  | c :: cs =>
    if startsWithL nameEqPat (c :: cs) then
      match ((c :: cs).drop 6).findIdx? (fun x => x == '"') with
      | some 0 => findNameVal cs
      | some k => some (((c :: cs).drop 6).take k)
      | none => findNameVal cs
    else findNameVal cs

/-- The replacement callback: fill `path` from `name` when absent. -/
def sampleReplace (attrs : List Char) : List Char :=
  if hasSubstr pathEqPat attrs then sampleOpenPat ++ attrs ++ ['>']
  else
    match findNameVal attrs with
    | some nm => sampleOpenPat ++ attrs ++ " path=\"".data ++ nm ++ ['"', '>']
    | none => sampleOpenPat ++ attrs ++ ['>']

def fixSampleF : ℕ → List Char → List Char
  | 0, s => s
  | _ + 1, [] => []
  | fuel + 1, c :: cs =>
    match matchSampleTag (c :: cs) with
    | some (attrs, rest) => sampleReplace attrs ++ fixSampleF fuel rest
    | none => c :: fixSampleF fuel cs

/-- Sample-attribute pass. -/
def fixSampleAttrs (s : List Char) : List Char := fixSampleF s.length s

/-- Non-overlapping count of a literal substring (`match(/…/g).length`). -/
def countSubF (pat : List Char) : ℕ → List Char → ℕ
  | 0, _ => 0
  | _ + 1, [] => 0
  | fuel + 1, c :: cs =>
    if startsWithL pat (c :: cs) then 1 + countSubF pat fuel (List.drop (pat.length - 1) cs)
    else countSubF pat fuel cs

def countSubstr (pat s : List Char) : ℕ := countSubF pat s.length s

/-- A match of `<tag[^>]*>` at the head of `s`: its total length. -/
def matchOpenLen (tag : List Char) (s : List Char) : Option ℕ :=
  if startsWithL ('<' :: tag) s then
    match (s.drop (tag.length + 1)).findIdx? (fun c => c == '>') with
    | some k => some (tag.length + 1 + k + 1)
    | none => none
  else none

/-- Non-overlapping count of matches of `<tag[^>]*>`. -/
def countOpenF (tag : List Char) : ℕ → List Char → ℕ
  | 0, _ => 0
  | _ + 1, [] => 0
  | fuel + 1, c :: cs =>
    match matchOpenLen tag (c :: cs) with
    | some len => 1 + countOpenF tag fuel ((c :: cs).drop len)
    | none => countOpenF tag fuel cs

def countOpenTags (tag s : List Char) : ℕ := countOpenF tag s.length s

def openTagsList : List String :=
  ["DrumProgram", "KeygroupProgram", "Pads", "Keygroups", "Pad", "Keygroup", "Zone",
   "Sample"]

/-- One `openTags.forEach` step: append the close-tag deficit for `tag`. -/
def fixTagStep (content : List Char) (tag : String) : List Char :=
  if countSubstr (('<' :: '/' :: tag.data) ++ ['>']) content <
      countOpenTags tag.data content then
    content ++ (List.replicate
      (countOpenTags tag.data content -
        countSubstr (('<' :: '/' :: tag.data) ++ ['>']) content)
      (('<' :: '/' :: tag.data) ++ ['>', '\n'])).flatten
  else content

/-- Closing-tag pass (later tags are counted on the grown document). -/
def fixClosingTags (s : List Char) : List Char := openTagsList.foldl fixTagStep s

/-- `XPMUtils.fixXPMContent`: the three textual repair passes in order. -/
def fixXPMContent (s : String) : String :=
  String.mk (fixClosingTags (fixSampleAttrs (fixDecl s.data)))

/-- Open-tag occurrences of the element actually named `tag` (the claim's
reading): `<tag` followed by `>`, whitespace or `/`.  Stated from the
claim's words, for comparison with the code's prefix-based counting. -/
def specOpenAt (tag : List Char) (s : List Char) : Bool :=
  startsWithL ('<' :: tag) s &&
    (match (s.drop (tag.length + 1)).head? with
     | some c => c == '>' || c == ' ' || c == '/' || c == '\t' || c == '\n'
     | none => false)

def specElemOpenCountF (tag : List Char) : ℕ → List Char → ℕ
  | 0, _ => 0
  | _ + 1, [] => 0
  | fuel + 1, c :: cs =>
    (if specOpenAt tag (c :: cs) then 1 else 0) + specElemOpenCountF tag fuel cs

def specElemOpenCount (tag s : List Char) : ℕ := specElemOpenCountF tag s.length s

theorem startsWithL_append_self (l y : List Char) : startsWithL l (l ++ y) = true := by
  induction l with
  | nil => rfl
  | cons c t ih => rw [List.cons_append, startsWithL]; simp [ih]

theorem matchSampleTag_none_of_head {c : Char} (h : c ≠ '<') (cs : List Char) :
    matchSampleTag (c :: cs) = none := by
  unfold matchSampleTag
  rw [if_neg ?_]
  rw [sampleOpenPat, startsWithL]
  simp only [Bool.and_eq_true, beq_iff_eq]
  intro he
  exact h he.1.symm

theorem matchSampleTag_none_q (cs : List Char) :
    matchSampleTag ('<' :: '?' :: cs) = none := by
  unfold matchSampleTag
  rw [if_neg ?_]
  rw [sampleOpenPat, startsWithL, startsWithL]
  simp

theorem fixSampleF_step_ne {c : Char} (h : c ≠ '<') (fuel : ℕ) (cs : List Char) :
    fixSampleF (fuel + 1) (c :: cs) = c :: fixSampleF fuel cs := by
  rw [fixSampleF, matchSampleTag_none_of_head h]

theorem fixSampleF_no_lt {l : List Char} (hl : ∀ c ∈ l, c ≠ '<') :
    ∀ (fuel : ℕ) (t : List Char),
      fixSampleF (l.length + fuel) (l ++ t) = l ++ fixSampleF fuel t := by
  induction l with
  | nil => intro fuel t; simp
  | cons c l' ih =>
    intro fuel t
    have hc : c ≠ '<' := hl c (List.mem_cons_self c l')
    have hlen : (c :: l').length + fuel = (l'.length + fuel) + 1 := by
      simp [List.length_cons]; omega
    rw [List.cons_append, hlen, fixSampleF_step_ne hc]
    rw [ih (fun x hx => hl x (List.mem_cons_of_mem c hx)) fuel t]
    rfl

theorem fixSampleAttrs_decl (t : List Char) :
    fixSampleAttrs (xmlDeclFull ++ t) = xmlDeclFull ++ fixSampleF t.length t := by
  have hdecl : xmlDeclFull =
      '<' :: '?' :: "xml version=\"1.0\" encoding=\"UTF-8\"?>\n".data := rfl
  have htail : ∀ c ∈ "xml version=\"1.0\" encoding=\"UTF-8\"?>\n".data, c ≠ '<' := by decide
  unfold fixSampleAttrs
  rw [List.length_append, hdecl]
  have hlen : ('<' :: '?' :: "xml version=\"1.0\" encoding=\"UTF-8\"?>\n".data).length + t.length
      = (("xml version=\"1.0\" encoding=\"UTF-8\"?>\n".data).length + t.length) + 1 + 1 := by
    simp [List.length_cons]; omega
  rw [List.cons_append, List.cons_append, hlen]
  rw [show ∀ (f : ℕ) (cs : List Char), fixSampleF (f + 1) ('<' :: '?' :: cs) =
      '<' :: fixSampleF f ('?' :: cs) from fun f cs => by
    rw [fixSampleF, matchSampleTag_none_q]]
  rw [fixSampleF_step_ne (by decide)]
  rw [fixSampleF_no_lt htail t.length t]
  simp

theorem fixTagStep_append (s : List Char) (tag : String) :
    ∃ y, fixTagStep s tag = s ++ y := by
  unfold fixTagStep
  by_cases h : countSubstr (('<' :: '/' :: tag.data) ++ ['>']) s <
      countOpenTags tag.data s
  · exact ⟨_, by rw [if_pos h]⟩
  · exact ⟨[], by rw [if_neg h, List.append_nil]⟩

theorem foldl_fixTagStep_append (tags : List String) :
    ∀ s : List Char, ∃ y, List.foldl fixTagStep s tags = s ++ y := by
  induction tags with
  | nil => intro s; exact ⟨[], (List.append_nil s).symm⟩
  | cons tg tl ih =>
    intro s
    obtain ⟨y1, hy1⟩ := fixTagStep_append s tg
    obtain ⟨y2, hy2⟩ := ih (s ++ y1)
    exact ⟨y1 ++ y2, by rw [List.foldl_cons, hy1, hy2, List.append_assoc]⟩

set_option maxRecDepth 1000000 in
set_option maxHeartbeats 2000000 in
/-- C6 (amended).  The repair pass (a) prepends the declaration header when
none is present, and (b) fills a missing `path` attribute from the `name`
attribute.  Pass (c) appends, per known element name and in list order on
the growing document, the deficit of closing elements — but it counts open
occurrences by the textual pattern `<Name[^>]*>`, which also matches
elements whose name merely extends the known name (so e.g.
`<KeygroupProgram>` counts as a `Keygroup` open), not occurrences of the
element itself.  The Zone instance holds: a document with 3 opened and 1
closed Zone elements (and otherwise balanced tags) gains exactly 2 appended
`</Zone>` closes, and the structural reader yields one zone record per
`Zone`-with-`Sample` element, so the repaired document's three zones read
back as 3 zone records. -/
theorem fixXPMContent_repair_behavior :
    (∀ s : String, hasSubstr xmlDeclPat s.data = false →
      startsWithL xmlDeclFull (fixXPMContent s).data = true) ∧
    fixXPMContent "<?xml?><Sample name=\"kick\"></Sample>" =
      "<?xml?><Sample name=\"kick\" path=\"kick\"></Sample>" ∧
    fixXPMContent "<?xml?><Keygroup index=\"0\"><Zone><Sample name=\"a\" path=\"a\"></Sample></Zone><Zone><Sample name=\"b\" path=\"b\"></Sample><Zone><Sample name=\"c\" path=\"c\"></Sample></Keygroup>" =
      "<?xml?><Keygroup index=\"0\"><Zone><Sample name=\"a\" path=\"a\"></Sample></Zone><Zone><Sample name=\"b\" path=\"b\"></Sample><Zone><Sample name=\"c\" path=\"c\"></Sample></Keygroup></Zone>\n</Zone>\n" ∧
    (extractKeygroups (XNode.elem "Keygroup" [("index", "0")]
      [.elem "Zone" [] [.elem "Sample" [("name", "a"), ("path", "a")] []],
       .elem "Zone" [] [.elem "Sample" [("name", "b"), ("path", "b")] []],
       .elem "Zone" [] [.elem "Sample" [("name", "c"), ("path", "c")] []]])).map
      (fun kg => kg.zones.length) = [3] := by
  refine ⟨?_, by decide, by decide, by decide⟩
  intro s hn
  unfold fixXPMContent
  rw [fixDecl, if_neg (by simp [hn])]
  rw [fixSampleAttrs_decl]
  obtain ⟨y, hy⟩ := foldl_fixTagStep_append openTagsList
    (xmlDeclFull ++ fixSampleF s.data.length s.data)
  unfold fixClosingTags
  rw [hy, List.append_assoc]
  exact startsWithL_append_self _ _

/-- Witness for C6 (amended): a document without a declaration gets one
prepended. -/
theorem fixXPMContent_repair_behavior_witness :
    startsWithL xmlDeclFull (fixXPMContent "<KeygroupProgram>").data = true :=
  fixXPMContent_repair_behavior.1 "<KeygroupProgram>" (by decide)

set_option maxRecDepth 1000000 in
set_option maxHeartbeats 2000000 in
/-- C6 counterexample: the balanced document
`<?xml?><KeygroupProgram></KeygroupProgram>` has zero `Keygroup` open
elements and zero `</Keygroup>` closes, yet the repair appends a spurious
`</Keygroup>` because the counting pattern `<Keygroup[^>]*>` also matches
`<KeygroupProgram>` — so pass (c) does not append "exactly as many closing
elements as the count of its open occurrences exceeds the count of its
close occurrences" for the element named `Keygroup`. -/
theorem fixXPMContent_prefix_collision_counterexample :
    fixXPMContent "<?xml?><KeygroupProgram></KeygroupProgram>" =
      "<?xml?><KeygroupProgram></KeygroupProgram></Keygroup>\n" ∧
    specElemOpenCount "Keygroup".data
      "<?xml?><KeygroupProgram></KeygroupProgram>".data = 0 ∧
    countSubstr (('<' :: '/' :: "Keygroup".data) ++ ['>'])
      "<?xml?><KeygroupProgram></KeygroupProgram>".data = 0 := by
  refine ⟨by decide, by decide, by decide⟩
